import Mathlib

/-!
Verification development for the bmslab allocator (`bmslab.c`): a bitmap-based
slab allocator for fixed-size objects.  This file gives a shallow embedding of
the allocator's data model and operations and proves properties of the
embedding.

Modelling conventions.
* Executions are sequential (one operation runs to completion at a time); all
  properties below are about quiescent states, i.e. states between completed
  calls.  In a sequential execution every `atomic_compare_exchange_weak` is
  uncontended and is modelled as succeeding, and the single-writer coordination
  flag `phys_page_count_flag` is `0` whenever `adaptive_phys_page_expand` or
  `adaptive_phys_page_shrink` is entered, so the flag itself is not part of the
  state.
* Machine words are modelled as `Nat`.  Bitmap words (`uint32_t`) keep the
  invariant `< 2 ^ 32`; the per-page lock/ref words (`uint64_t`) are written
  with the same bit operations as the C source (`|||`/`&&&` with the high-bit
  mask `2 ^ 63`, `+ 1`, `- 1`).
* The development has two layers.  The machine layer (`page_start_machine`,
  `obj_addr_machine`, `get_max_slot_count32`, `allocRound_machine`,
  `bmslab_alloc_machine`, `bmslab_free_machine` and the machine
  expand/shrink) implements the exact `int`/`uint32_t`/`uint64_t` arithmetic
  of the source, including the 32-bit shift overflow in `page_start`, the
  `uint32_t` truncation of `diff >> 12` in `bmslab_free`, the `uint32_t`
  capacity product, and the wrap-around of the allocation counter and of the
  lock/ref words (signed `int` overflow, undefined by C, is modelled as the
  two's-complement wrap the compiled code performs, and the narrowing
  `size_t`-to-`int`/`uint32_t` conversions as reduction modulo `2 ^ 32`).
  The unwrapped layer (`allocRound`, `bmslab_alloc`, `bmslab_free`, ...)
  drops those reductions; `alloc_machine_eq_small` and
  `free_machine_eq_small` prove the two layers equal on every reachable slab
  of at most `2 ^ 19` pages, the regime in which no shift overflow, pointer
  wrap or counter wrap can occur.  Theorems about larger slabs use the
  machine layer directly.
* Pointers are represented by their byte offset from `base_addr`; a wrapper
  reconstructs the C pointer arithmetic `(uintptr_t)ptr - (uintptr_t)base`
  modulo `2 ^ 64` for the deallocator.
* The MurmurHash3 mixer is used by the C source only to pick the starting page
  index and starting submap index of each scan.  Its outputs are inputs
  (oracles) of the embedded allocator, so every theorem quantifies over all
  possible hash outcomes.
* `bmslab_alloc`'s `retry` loop is embedded with explicit fuel.  A result of
  `none` means the fuel ran out (the call has not returned); `some none` is a
  completed call returning `NULL`; `some (some off)` is a completed call
  returning `base_addr + off`.
-/

namespace Bmslab

/-- PAGE_SIZE from the source. -/
def PAGE_SIZE : Nat := 4096

/-- SUBMAP_COUNT from the source: 16 sub-bitmaps of 32 bits per page. -/
def SUBMAP_COUNT : Nat := 16

/-- PAGE_LOCK_MASK (0x8000000000000000): the drain-lock bit of a page's
lock/ref word. -/
def PAGE_LOCK_MASK : Nat := 2 ^ 63

/-- The all-ones 32-bit word 0xFFFFFFFF. -/
def FULL32 : Nat := 4294967295

/-- Top-level state of `struct bmslab`.  `page_lock_refs` and the bitmap words
are total functions on page indices; the C source only ever touches indices
below `virt_page_count`. -/
structure Slab where
  virt_page_count : Nat
  slot_count_per_page : Nat
  obj_size : Nat
  phys_page_count : Nat
  allocated_slot_count : Nat
  page_lock_refs : Nat → Nat
  submap : Nat → Nat → Nat

/-- Bitmap words of one page as produced by the two loops of `bmslab_init`:
start from all bits set (`0xffffffff`), then for each real slot
`s < slot_count_per_page` clear bit `s / 16` of word `s % 16`. -/
def initPageWords (spp : Nat) : Nat → Nat :=
  (List.range spp).foldl
    (fun f s =>
      Function.update f (s % SUBMAP_COUNT)
        (f (s % SUBMAP_COUNT) &&& (FULL32 ^^^ (1 <<< (s / SUBMAP_COUNT)))))
    (fun _ => FULL32)

/-- The `struct bmslab` produced by a successful `bmslab_init`, after the
argument `int`s have been converted to the stored `uint32_t` values:
one physical page, zero allocated slots, all lock/ref words zeroed by
`calloc`, and every virtual page's bitmap pre-initialised. -/
def initialSlab (obj_size max_pages : Nat) : Slab :=
  { virt_page_count := max_pages
    slot_count_per_page := PAGE_SIZE / obj_size
    obj_size := obj_size
    phys_page_count := 1
    allocated_slot_count := 0
    page_lock_refs := fun _ => 0
    submap := fun _ => initPageWords (PAGE_SIZE / obj_size) }

/-- bmslab_init.  `obj_size` and `max_page_count` are the C `int` arguments;
`mem_ok` abstracts the success of the `calloc`/`mmap` acquisitions.  The C
source rejects `obj_size < 8`, `obj_size > PAGE_SIZE` and `max_page_count == 0`
(only equality with zero is checked); the stored `virt_page_count` is the
`uint32_t` conversion of `max_page_count`. -/
def bmslab_init (obj_size max_page_count : Int) (mem_ok : Bool) : Option Slab :=
  if obj_size < 8 ∨ 4096 < obj_size then none
  else if max_page_count = 0 then none
  else if mem_ok = false then none
  else some (initialSlab obj_size.toNat ((max_page_count % (2 ^ 32 : Int)).toNat))

/-- __builtin_ctz(~v) for a 32-bit word `v`: the index of the lowest clear bit
of `v`, or `32` when `v` has no clear bit among bits `0..31`. -/
def ctzCompl32 (v : Nat) : Nat :=
  match (List.range 32).find? (fun b => ! v.testBit b) with
  | some b => b
  | none => 32

/-- The inner submap loop of `bmslab_alloc` on one page: starting from
`submap_start`, cyclically inspect the 16 words; skip a word equal to
`0xffffffff`; otherwise claim the lowest clear bit (the CAS of a sequential
execution succeeds).  Returns the claimed `(submap_idx, bit_idx)`. -/
def scanSubmaps (w : Nat → Nat) (submap_start : Nat) : Option (Nat × Nat) :=
  (List.range SUBMAP_COUNT).findSome? (fun j =>
    if w ((submap_start + j) % SUBMAP_COUNT) = FULL32 then none
    else if 32 ≤ ctzCompl32 (w ((submap_start + j) % SUBMAP_COUNT)) then none
    else some ((submap_start + j) % SUBMAP_COUNT,
               ctzCompl32 (w ((submap_start + j) % SUBMAP_COUNT))))

/-- The outer page loop of `bmslab_alloc`: starting from `page_start`,
cyclically visit every page below `phys_page_count`; `try_ref_page` fails on a
drain-locked page (high bit of the lock/ref word set) and the scan moves on.
Pages that are visited but yield no slot have their reference count restored
before moving on, so only the successful page's claim is returned; `sub_starts
i` is the hash drawn for the `i`-th visited page.  Returns the claimed
`(page_idx, submap_idx, bit_idx)`. -/
def scanPages (s : Slab) (page_start : Nat) (sub_starts : Nat → Nat) :
    Option (Nat × Nat × Nat) :=
  (List.range s.phys_page_count).findSome? (fun i =>
    if (s.page_lock_refs ((page_start + i) % s.phys_page_count)).testBit 63 then none
    else
      match scanSubmaps (s.submap ((page_start + i) % s.phys_page_count)) (sub_starts i) with
      | some (sub, bit) => some ((page_start + i) % s.phys_page_count, sub, bit)
      | none => none)

/-- get_max_slot_count: `phys_page_count * slot_count_per_page`, unwrapped;
the source's `uint32_t` product is `get_max_slot_count32` (equal whenever
the true capacity is below `2 ^ 32`, see `get_max32_eq`). -/
def get_max_slot_count (s : Slab) : Nat :=
  s.phys_page_count * s.slot_count_per_page

/-- adaptive_phys_page_expand.  If the allocated-slot count has reached half of
the current capacity (PAGE_EXPAND_THRESHOLD) and `phys_page_count <
virt_page_count`, publish the page at index `phys_page_count`: increment the
count and clear the drain-lock bit of the new page's lock/ref word
(`unlock_page`). -/
def adaptive_phys_page_expand (s : Slab) : Slab :=
  if s.allocated_slot_count < get_max_slot_count s / 2 then s
  else if s.phys_page_count < s.virt_page_count then
    { s with
      phys_page_count := s.phys_page_count + 1
      page_lock_refs := Function.update s.page_lock_refs s.phys_page_count
        (s.page_lock_refs s.phys_page_count &&& (PAGE_LOCK_MASK - 1)) }
  else s

/-- One body of `bmslab_alloc`'s `retry` loop, up to (but not including) the
final `phys_page_count < virt_page_count` check, in the unwrapped layer:
scan the pages; on a successful claim, leave the winning page's reference
count incremented (`try_ref_page` is not undone on this path), set the
claimed bit, increment `allocated_slot_count`, run
`adaptive_phys_page_expand`, and return the offset
`page_idx * PAGE_SIZE + slot_idx * obj_size` where
`slot_idx = bit_idx * SUBMAP_COUNT + submap_idx`.  The machine-exact form,
whose returned offset is `obj_addr_machine` (the `int`-shift wrap of
`page_start`) and whose counter and lock/ref increments wrap, is
`allocRound_machine`; `alloc_machine_eq_small` proves the two allocators
equal on reachable slabs of at most `2 ^ 19` pages. -/
def allocRound (s : Slab) (page_hash : Nat) (sub_hashes : Nat → Nat) :
    Option Nat × Slab :=
  match scanPages s page_hash sub_hashes with
  | none => (none, s)
  | some (page, sub, bit) =>
    let slot := bit * SUBMAP_COUNT + sub
    let s1 : Slab :=
      { s with
        page_lock_refs :=
          Function.update s.page_lock_refs page (s.page_lock_refs page + 1)
        submap :=
          Function.update s.submap page
            (Function.update (s.submap page) sub
              (s.submap page sub ||| (1 <<< bit)))
        allocated_slot_count := s.allocated_slot_count + 1 }
    (some (page * PAGE_SIZE + slot * s.obj_size), adaptive_phys_page_expand s1)

/-- bmslab_alloc.  `rounds k` supplies the hash outcomes of the `k`-th trip
around the `retry` label (the page hash and the per-visited-page submap
hashes); `fuel` bounds the number of trips.  Result `none`: out of fuel (the
call has not returned); `some none`: the call returned `NULL`; `some (some
off)`: the call returned the pointer at byte offset `off` from `base_addr`.
After a failed scan the source re-checks `phys_page_count < virt_page_count`;
if so it runs `adaptive_phys_page_expand` and retries, otherwise it returns
`NULL`. -/
def bmslab_alloc :
    Slab → (Nat → Nat × (Nat → Nat)) → Nat → Nat → Option (Option Nat) × Slab
  | s, _, _, 0 => (none, s)
  | s, rounds, k, fuel + 1 =>
    match allocRound s (rounds k).1 (rounds k).2 with
    | (some off, s') => (some (some off), s')
    | (none, s') =>
      if s'.phys_page_count < s'.virt_page_count then
        bmslab_alloc (adaptive_phys_page_expand s') rounds (k + 1) fuel
      else (some none, s')

/-- is_page_reclaimable: the lock/ref word equals exactly the drain bit
(locked, reference count zero). -/
def is_page_reclaimable (w : Nat) : Bool :=
  w == PAGE_LOCK_MASK

/-- adaptive_phys_page_shrink.  If the allocated-slot count is at or below a
specified eighth of capacity (PAGE_SHRINK_THRESHOLD) and the last page is not
page 0, set the last page's drain-lock bit (`lock_page`); if the resulting
word shows a zero reference count, release the page's physical backing
(`madvise(MADV_FREE)`, which does not touch any metadata modelled here) and
decrement `phys_page_count`.  A page that fails to drain stays locked. -/
def adaptive_phys_page_shrink (s : Slab) : Slab :=
  if get_max_slot_count s / 8 < s.allocated_slot_count then s
  else
    let last := s.phys_page_count - 1
    if last = 0 then s
    else
      let w := s.page_lock_refs last ||| PAGE_LOCK_MASK
      let s1 : Slab :=
        { s with page_lock_refs := Function.update s.page_lock_refs last w }
      if is_page_reclaimable w then
        { s1 with phys_page_count := s1.phys_page_count - 1 }
      else s1

/-- bmslab_free on the byte offset `diff = (uintptr_t)ptr - (uintptr_t)base`,
in the unwrapped layer: derive `page_idx = diff >> 12` and reject it when it
is not below `virt_page_count`; otherwise clear bit `slot_idx / 16` of word
`slot_idx % 16` where `slot_idx = (diff mod 4096) / obj_size`, decrement
`allocated_slot_count`, decrement the page's lock/ref word, and run
`adaptive_phys_page_shrink`.  The machine-exact form, with the source's
`uint32_t` truncation of `page_idx`, the `uint32_t` wrap of `page_idx << 12`
in `page_base`, the slot assert and the wrapping decrements, is
`bmslab_free_machine`; `free_machine_eq_small` proves the two equal for
outstanding offsets on reachable slabs of at most `2 ^ 19` pages. -/
def bmslab_free (s : Slab) (diff : Nat) : Slab :=
  let page_idx := diff / PAGE_SIZE
  if s.virt_page_count ≤ page_idx then s
  else
    let offset := diff % PAGE_SIZE
    let slot_idx := offset / s.obj_size
    let submap_idx := slot_idx % SUBMAP_COUNT
    let bit_idx := slot_idx / SUBMAP_COUNT
    let s1 : Slab :=
      { s with
        submap :=
          Function.update s.submap page_idx
            (Function.update (s.submap page_idx) submap_idx
              (s.submap page_idx submap_idx &&& (FULL32 ^^^ (1 <<< bit_idx))))
        allocated_slot_count := s.allocated_slot_count - 1
        page_lock_refs :=
          Function.update s.page_lock_refs page_idx
            (s.page_lock_refs page_idx - 1) }
    adaptive_phys_page_shrink s1

/-- bmslab_free at the pointer level: the C source returns immediately on a
null pointer, and otherwise computes `diff = (uintptr_t)ptr - (uintptr_t)base`
in 64-bit two's-complement arithmetic (`ptr` and `base` are addresses below
`2 ^ 64`). -/
def bmslab_free_ptr (s : Slab) (base ptr : Nat) : Slab :=
  if ptr = 0 then s
  else bmslab_free s ((2 ^ 64 + ptr - base) % 2 ^ 64)

/-- Number of outstanding allocations whose offsets lie on page `p` (the
quantity tracked by the low 63 bits of `page_lock_refs[p]`). -/
def pageRefs (out : List Nat) (p : Nat) : Nat :=
  out.countP (fun off => off / PAGE_SIZE == p)

/-- Number of set bits among bits `0..31` of `v` (the popcount of a 32-bit
word). -/
def popcount32 (v : Nat) : Nat :=
  Finset.sum (Finset.range 32) (fun b => if v.testBit b then 1 else 0)

/-- Total popcount of the 16 bitmap words of one page. -/
def pagePop (w : Nat → Nat) : Nat :=
  Finset.sum (Finset.range 16) (fun sub => popcount32 (w sub))

/-- Total popcount of a `virt`-page array of bitmap words. -/
def totalPopW (virt : Nat) (submap : Nat → Nat → Nat) : Nat :=
  Finset.sum (Finset.range virt) (fun p => pagePop (submap p))

/-- Total popcount of all bitmap words of all `virt_page_count` pages. -/
def totalPop (s : Slab) : Nat :=
  totalPopW s.virt_page_count s.submap

/-- Page `p` offers a free real slot to the allocator: it is not drain-locked
and some slot below `slot_count_per_page` has its bitmap bit clear. -/
def pageOffersFreeSlot (s : Slab) (p : Nat) : Prop :=
  (s.page_lock_refs p).testBit 63 = false ∧
  ∃ slot < s.slot_count_per_page,
    (s.submap p (slot % SUBMAP_COUNT)).testBit (slot / SUBMAP_COUNT) = false

/-- The low 63 bits (the reference-count part) of a lock/ref word. -/
def refPart (w : Nat) : Nat :=
  w % 2 ^ 63

/-- Sequentially reachable configurations: `Reach s out` holds when the slab
state `s` together with the list `out` of outstanding offsets can arise from a
successful `bmslab_init` through a sequence of completed `bmslab_alloc` calls
(with arbitrary hash outcomes) and `bmslab_free` calls on outstanding
offsets.  The `bmslab_init` arguments are constrained to the range of the C
`int` type.  The transitions are those of the unwrapped layer; on slabs of at
most `2 ^ 19` pages they are also exactly the machine transitions
(`alloc_machine_eq_small`, `free_machine_eq_small`). -/
inductive Reach : Slab → List Nat → Prop where
  | init : ∀ (obj_size max_page_count : Int) (s : Slab),
      -(2 ^ 31) ≤ max_page_count → max_page_count < 2 ^ 31 →
      bmslab_init obj_size max_page_count true = some s → Reach s []
  | alloc_some : ∀ s out rounds fuel off s',
      Reach s out → bmslab_alloc s rounds 0 fuel = (some (some off), s') →
      Reach s' (off :: out)
  | alloc_none : ∀ s out rounds fuel s',
      Reach s out → bmslab_alloc s rounds 0 fuel = (some none, s') →
      Reach s' out
  | free : ∀ s out off,
      Reach s out → off ∈ out → Reach (bmslab_free s off) (out.erase off)

/-- A fixed, concrete hash oracle (all hash outputs zero), used to run the
allocator on concrete inputs. -/
def zeroRounds : Nat → Nat × (Nat → Nat) :=
  fun _ => (0, fun _ => 0)

/-! ### Machine-exact pointer arithmetic

The definitions above keep the arithmetic unwrapped; the definitions below
implement the exact machine arithmetic of the source, including every
narrowing conversion and wrap-around.  The two layers are proved to coincide
on slabs of at most `2 ^ 19` pages (`alloc_machine_eq_small`,
`free_machine_eq_small`), the regime in which no shift overflow, pointer
wrap or counter wrap can occur. -/

/-- The byte offset of `page_start(slab, page_idx)` from `base_addr` as the
source computes it: `page_idx << PAGE_SHIFT` is evaluated in 32-bit `int`
arithmetic, so for `page_idx ≥ 2 ^ 19` the shifted value wraps modulo
`2 ^ 32` (signed overflow, compiled as the two's-complement wrap) and the
`int` is then sign-extended when added to the `char *` base, i.e. a value
with bit 31 set contributes `2 ^ 64 - 2 ^ 32 + v` in 64-bit pointer
arithmetic. -/
def page_start_machine (page : Nat) : Nat :=
  let v := (page * 4096) % 2 ^ 32
  if v < 2 ^ 31 then v else 2 ^ 64 - 2 ^ 32 + v

/-- The byte offset from `base_addr` of the pointer `bmslab_alloc` returns:
`(char *)page_start(slab, page_idx) + slot_idx * obj_size` in 64-bit pointer
arithmetic (`slot_idx * obj_size` is a `uint32_t` product, at most
`512 * 4096`, so only the outer sum can wrap). -/
def obj_addr_machine (page slot obj : Nat) : Nat :=
  (page_start_machine page + slot * obj) % 2 ^ 64

/-- get_max_slot_count as the source computes it: the `uint32_t` product
`phys_page_count * slot_count_per_page`, wrapping modulo `2 ^ 32`. -/
def get_max_slot_count32 (s : Slab) : Nat :=
  (s.phys_page_count * s.slot_count_per_page) % 2 ^ 32

/-- adaptive_phys_page_expand with the capacity computed as the `uint32_t`
product (see `get_max_slot_count32`); otherwise as
`adaptive_phys_page_expand`. -/
def adaptive_phys_page_expand_machine (s : Slab) : Slab :=
  if s.allocated_slot_count < get_max_slot_count32 s / 2 then s
  else if s.phys_page_count < s.virt_page_count then
    { s with
      phys_page_count := s.phys_page_count + 1
      page_lock_refs := Function.update s.page_lock_refs s.phys_page_count
        (s.page_lock_refs s.phys_page_count &&& (PAGE_LOCK_MASK - 1)) }
  else s

/-- adaptive_phys_page_shrink with the capacity computed as the `uint32_t`
product; otherwise as `adaptive_phys_page_shrink`. -/
def adaptive_phys_page_shrink_machine (s : Slab) : Slab :=
  if get_max_slot_count32 s / 8 < s.allocated_slot_count then s
  else
    let last := s.phys_page_count - 1
    if last = 0 then s
    else
      let w := s.page_lock_refs last ||| PAGE_LOCK_MASK
      let s1 : Slab :=
        { s with page_lock_refs := Function.update s.page_lock_refs last w }
      if is_page_reclaimable w then
        { s1 with phys_page_count := s1.phys_page_count - 1 }
      else s1

/-- One body of `bmslab_alloc`'s `retry` loop with machine arithmetic: the
returned pointer offset is `obj_addr_machine` (wrapping for pages
`≥ 2 ^ 19`), the `uint32_t` counter `allocated_slot_count` and the
`uint64_t` lock/ref word wrap on increment. -/
def allocRound_machine (s : Slab) (page_hash : Nat) (sub_hashes : Nat → Nat) :
    Option Nat × Slab :=
  match scanPages s page_hash sub_hashes with
  | none => (none, s)
  | some (page, sub, bit) =>
    let slot := bit * SUBMAP_COUNT + sub
    let s1 : Slab :=
      { s with
        page_lock_refs :=
          Function.update s.page_lock_refs page ((s.page_lock_refs page + 1) % 2 ^ 64)
        submap :=
          Function.update s.submap page
            (Function.update (s.submap page) sub
              (s.submap page sub ||| (1 <<< bit)))
        allocated_slot_count := (s.allocated_slot_count + 1) % 2 ^ 32 }
    (some (obj_addr_machine page slot s.obj_size), adaptive_phys_page_expand_machine s1)

/-- bmslab_alloc with machine arithmetic (see `allocRound_machine`); the
fuel/oracle conventions are those of `bmslab_alloc`. -/
def bmslab_alloc_machine :
    Slab → (Nat → Nat × (Nat → Nat)) → Nat → Nat → Option (Option Nat) × Slab
  | s, _, _, 0 => (none, s)
  | s, rounds, k, fuel + 1 =>
    match allocRound_machine s (rounds k).1 (rounds k).2 with
    | (some off, s') => (some (some off), s')
    | (none, s') =>
      if s'.phys_page_count < s'.virt_page_count then
        bmslab_alloc_machine (adaptive_phys_page_expand_machine s') rounds (k + 1) fuel
      else (some none, s')

/-- bmslab_free with machine arithmetic, on
`diff = (uintptr_t)ptr - (uintptr_t)base`:
* `page_idx` is the `uint32_t` truncation of `diff >> PAGE_SHIFT`, and only
  the truncated value is compared against `virt_page_count`;
* `page_base - base` is the `uint32_t` value `page_idx << PAGE_SHIFT`
  (wrapping modulo `2 ^ 32`, zero-extended into the pointer sum);
* `offset = ptr - page_base` in 64-bit arithmetic, and `slot_idx` is
  `offset / obj_size` narrowed to 32 bits (the `(int)` cast, compiled as the
  wrap);
* the live `assert(slot_idx < slot_count_per_page)` terminates the process
  before any mutation, so a failing assert is modelled as returning the
  state unchanged;
* `allocated_slot_count` (`uint32_t`) and the page's lock/ref word
  (`uint64_t`) wrap on decrement. -/
def bmslab_free_machine (s : Slab) (diff : Nat) : Slab :=
  let page_idx := (diff / PAGE_SIZE) % 2 ^ 32
  if s.virt_page_count ≤ page_idx then s
  else
    let offset := (2 ^ 64 + diff - (page_idx * 4096) % 2 ^ 32) % 2 ^ 64
    let slot_idx := (offset / s.obj_size) % 2 ^ 32
    if s.slot_count_per_page ≤ slot_idx then s
    else
      let submap_idx := slot_idx % SUBMAP_COUNT
      let bit_idx := slot_idx / SUBMAP_COUNT
      let s1 : Slab :=
        { s with
          submap :=
            Function.update s.submap page_idx
              (Function.update (s.submap page_idx) submap_idx
                (s.submap page_idx submap_idx &&& (FULL32 ^^^ (1 <<< bit_idx))))
          allocated_slot_count := (s.allocated_slot_count + (2 ^ 32 - 1)) % 2 ^ 32
          page_lock_refs :=
            Function.update s.page_lock_refs page_idx
              ((s.page_lock_refs page_idx + (2 ^ 64 - 1)) % 2 ^ 64) }
      adaptive_phys_page_shrink_machine s1

/-- `bmslab_free_machine` at the pointer level (cf. `bmslab_free_ptr`). -/
def bmslab_free_ptr_machine (s : Slab) (base ptr : Nat) : Slab :=
  if ptr = 0 then s
  else bmslab_free_machine s ((2 ^ 64 + ptr - base) % 2 ^ 64)

/-! ### Concrete allocation chains

Closed-form states of two single-threaded allocation-only executions of the
machine-level allocator, used to exhibit program states that large slabs
actually reach. -/

/-- Hash oracle directing the `k`-th allocation of the `obj_size = 4096`
chain straight at page `k`. -/
def chainOracle1 (k : Nat) : Nat → Nat × (Nat → Nat) :=
  fun _ => (k, fun _ => 0)

/-- Closed form of the state after `k` allocations of the `obj_size = 4096`
chain on a `virt`-page slab: pages `0..k-1` are full with one reference
each, the rest are fresh, and each allocation's expansion has published one
further page. -/
def bigSlab1 (virt k : Nat) : Slab :=
  { virt_page_count := virt
    slot_count_per_page := 1
    obj_size := 4096
    phys_page_count := min (k + 1) virt
    allocated_slot_count := k % 2 ^ 32
    page_lock_refs := fun p => if p < k then 1 else 0
    submap := fun p sub => if p < k then FULL32 else initPageWords 1 sub }

/-- The states of the `obj_size = 4096` chain: `k` machine allocations from
a fresh `virt`-page slab, the `k`-th directed at page `k`. -/
def allocChain1 (virt : Nat) : Nat → Slab
  | 0 => initialSlab 4096 virt
  | k + 1 => (bmslab_alloc_machine (allocChain1 virt k) (chainOracle1 k) 0 1).2

theorem testBit_high_add (L : Bool) (R i : Nat) (hR : R < 2 ^ 63) :
    ((cond L (2 ^ 63) 0) + R).testBit i = (L && decide (i = 63) || R.testBit i) := by
  cases L with
  | false => simp
  | true =>
    simp only [cond, Bool.true_and]
    rcases Nat.lt_trichotomy i 63 with hi | hi | hi
    · have hsplit : (2 : Nat) ^ 63 = 2 ^ i * (2 * 2 ^ (62 - i)) := by
        rw [← pow_succ']
        rw [← pow_add]
        congr 1
        omega
      have hdiv : (2 ^ 63 + R) / 2 ^ i = 2 * 2 ^ (62 - i) + R / 2 ^ i := by
        rw [hsplit, Nat.mul_add_div (Nat.pos_pow_of_pos i (by omega))]
      rw [Nat.testBit_to_div_mod, Nat.testBit_to_div_mod, hdiv]
      have : (2 * 2 ^ (62 - i) + R / 2 ^ i) % 2 = (R / 2 ^ i) % 2 := by
        omega
      rw [this]
      simp [Nat.ne_of_lt hi]
    · subst hi
      have h1 : (2 ^ 63 + R) / 2 ^ 63 = 1 := by
        rw [Nat.add_comm, Nat.add_div_right _ (Nat.pos_pow_of_pos 63 (by omega)),
          Nat.div_eq_of_lt hR]
      rw [Nat.testBit_to_div_mod, h1]
      simp
    · have h64 : (2 : Nat) ^ 64 ≤ 2 ^ i := Nat.pow_le_pow_right (by omega) hi
      have hlt : 2 ^ 63 + R < 2 ^ i := by
        have : (2 : Nat) ^ 64 = 2 ^ 63 + 2 ^ 63 := by norm_num
        omega
      have hRlt : R < 2 ^ i := by omega
      rw [Nat.testBit_lt_two_pow hlt, Nat.testBit_lt_two_pow hRlt]
      simp [Nat.ne_of_gt hi]

theorem testBit63_word (L : Bool) (R : Nat) (hR : R < 2 ^ 63) :
    ((cond L (2 ^ 63) 0) + R).testBit 63 = L := by
  rw [testBit_high_add L R 63 hR]
  have hb : R.testBit 63 = false := Nat.testBit_lt_two_pow hR
  rw [hb]
  cases L <;> simp

theorem word_lor_high (L : Bool) (R : Nat) (hR : R < 2 ^ 63) :
    ((cond L (2 ^ 63) 0) + R) ||| 2 ^ 63 = 2 ^ 63 + R := by
  apply Nat.eq_of_testBit_eq
  intro i
  rw [Nat.testBit_or, testBit_high_add L R i hR]
  have h2 := testBit_high_add true R i hR
  simp only [cond, Bool.true_and] at h2
  rw [h2, Nat.testBit_two_pow]
  cases L <;> by_cases hi : i = 63
  · subst hi; simp
  · have hi' : ¬ 63 = i := fun h => hi h.symm
    simp [hi, hi']
  · subst hi; simp
  · have hi' : ¬ 63 = i := fun h => hi h.symm
    simp [hi, hi']

theorem word_land_low (L : Bool) (R : Nat) (hR : R < 2 ^ 63) :
    ((cond L (2 ^ 63) 0) + R) &&& (2 ^ 63 - 1) = R := by
  apply Nat.eq_of_testBit_eq
  intro i
  rw [Nat.testBit_and, testBit_high_add L R i hR, Nat.testBit_two_pow_sub_one]
  by_cases hi : i < 63
  · simp [Nat.ne_of_lt hi, hi]
  · have hRi : R.testBit i = false := by
      apply Nat.testBit_lt_two_pow
      calc R < 2 ^ 63 := hR
        _ ≤ 2 ^ i := Nat.pow_le_pow_right (by omega) (by omega)
    simp [hRi, hi]

theorem word_eq_mask_iff (L : Bool) (R : Nat) (hR : R < 2 ^ 63) :
    ((cond L (2 ^ 63) 0) + R = 2 ^ 63) ↔ (L = true ∧ R = 0) := by
  cases L with
  | false =>
    simp
    omega
  | true => simp

theorem refPart_word (L : Bool) (R : Nat) (hR : R < 2 ^ 63) :
    refPart ((cond L (2 ^ 63) 0) + R) = R := by
  cases L with
  | false =>
    simp only [cond, Nat.zero_add, refPart]
    exact Nat.mod_eq_of_lt hR
  | true =>
    simp only [cond, refPart]
    rw [Nat.add_mod_left]
    exact Nat.mod_eq_of_lt hR

/-! ### Facts about 32-bit bitmap words -/

theorem FULL32_eq : FULL32 = 2 ^ 32 - 1 := by norm_num [FULL32]

theorem testBit_FULL32 (i : Nat) : FULL32.testBit i = decide (i < 32) := by
  rw [FULL32_eq, Nat.testBit_two_pow_sub_one]

theorem eq_FULL32 (v : Nat) (hv : v < 2 ^ 32) (h : ∀ b, b < 32 → v.testBit b = true) :
    v = FULL32 := by
  apply Nat.eq_of_testBit_eq
  intro i
  rw [testBit_FULL32]
  by_cases hi : i < 32
  · simp [h i hi, hi]
  · have : v.testBit i = false := by
      apply Nat.testBit_lt_two_pow
      calc v < 2 ^ 32 := hv
        _ ≤ 2 ^ i := Nat.pow_le_pow_right (by omega) (by omega)
    simp [this, hi]

theorem ne_FULL32_of_clear (v b : Nat) (hb : b < 32) (h : v.testBit b = false) :
    v ≠ FULL32 := by
  intro hv
  rw [hv, testBit_FULL32] at h
  simp [hb] at h

theorem ctzCompl32_spec (v : Nat) (hv : v < 2 ^ 32) (hne : v ≠ FULL32) :
    ctzCompl32 v < 32 ∧ v.testBit (ctzCompl32 v) = false := by
  unfold ctzCompl32
  cases hfind : (List.range 32).find? (fun b => ! v.testBit b) with
  | none =>
    exfalso
    rw [List.find?_eq_none] at hfind
    apply hne
    apply eq_FULL32 v hv
    intro b hb
    have := hfind b (List.mem_range.mpr hb)
    simpa using this
  | some b =>
    refine ⟨List.mem_range.mp (List.mem_of_find?_eq_some hfind), ?_⟩
    have := List.find?_some hfind
    simpa using this

/-! ### The submap scan -/

theorem cyclic_hit (start p n : Nat) (hp : p < n) :
    ∃ i, i < n ∧ (start + i) % n = p := by
  have hn : 0 < n := by omega
  refine ⟨(p + n - start % n) % n, Nat.mod_lt _ hn, ?_⟩
  rw [Nat.add_mod_mod]
  have h1 : start % n < n := Nat.mod_lt _ hn
  have key : start + (p + n - start % n) = n * (start / n + 1) + p := by
    have h2 := Nat.div_add_mod start n
    have h3 : n * (start / n + 1) = n * (start / n) + n := by ring
    omega
  rw [key, Nat.mul_add_mod, Nat.mod_eq_of_lt hp]

theorem scanSubmaps_eq_none_iff (w : Nat → Nat) (start : Nat)
    (hw : ∀ sub, sub < 16 → w sub < 2 ^ 32) :
    scanSubmaps w start = none ↔ ∀ sub, sub < 16 → w sub = FULL32 := by
  unfold scanSubmaps
  rw [List.findSome?_eq_none_iff]
  constructor
  · intro h sub hsub
    obtain ⟨j, hj, hmod⟩ := cyclic_hit start sub SUBMAP_COUNT (by simpa [SUBMAP_COUNT] using hsub)
    have h2 := h j (by simpa [SUBMAP_COUNT] using hj)
    rw [hmod] at h2
    by_cases hfull : w sub = FULL32
    · exact hfull
    · exfalso
      have hctz := ctzCompl32_spec (w sub) (hw sub hsub) hfull
      simp [hfull, Nat.not_le.mpr hctz.1] at h2
  · intro h j hj
    have hlt : (start + j) % SUBMAP_COUNT < 16 := by
      simpa [SUBMAP_COUNT] using Nat.mod_lt (start + j) (by norm_num [SUBMAP_COUNT])
    simp [h _ hlt]

theorem scanSubmaps_some (w : Nat → Nat) (start sub bit : Nat)
    (hw : ∀ s, s < 16 → w s < 2 ^ 32)
    (h : scanSubmaps w start = some (sub, bit)) :
    sub < 16 ∧ bit < 32 ∧ (w sub).testBit bit = false := by
  unfold scanSubmaps at h
  obtain ⟨j, hj, hfj⟩ := List.exists_of_findSome?_eq_some h
  have hlt : (start + j) % SUBMAP_COUNT < 16 := by
    simpa [SUBMAP_COUNT] using Nat.mod_lt (start + j) (by norm_num [SUBMAP_COUNT])
  by_cases hfull : w ((start + j) % SUBMAP_COUNT) = FULL32
  · simp [hfull] at hfj
  · have hctz := ctzCompl32_spec _ (hw _ hlt) hfull
    rw [if_neg hfull, if_neg (Nat.not_le.mpr hctz.1)] at hfj
    have hpair := Option.some.inj hfj
    have hsub := congrArg Prod.fst hpair
    have hbit := congrArg Prod.snd hpair
    simp only at hsub hbit
    subst hsub
    subst hbit
    exact ⟨hlt, hctz.1, hctz.2⟩

/-! ### The page scan -/

theorem scanPages_eq_none_iff (s : Slab) (start : Nat) (subs : Nat → Nat)
    (hphys : 0 < s.phys_page_count)
    (hw : ∀ p sub, s.submap p sub < 2 ^ 32) :
    scanPages s start subs = none ↔
      ∀ p, p < s.phys_page_count →
        (s.page_lock_refs p).testBit 63 = true ∨
        ∀ sub, sub < 16 → s.submap p sub = FULL32 := by
  unfold scanPages
  rw [List.findSome?_eq_none_iff]
  constructor
  · intro h p hp
    obtain ⟨i, hi, hmod⟩ := cyclic_hit start p s.phys_page_count hp
    have h2 := h i (List.mem_range.mpr hi)
    rw [hmod] at h2
    by_cases hlock : (s.page_lock_refs p).testBit 63
    · exact Or.inl hlock
    · right
      rw [← scanSubmaps_eq_none_iff (s.submap p) (subs i) (fun sub _ => hw p sub)]
      simp only [hlock, if_false, Bool.false_eq_true, ite_false] at h2
      cases hscan : scanSubmaps (s.submap p) (subs i) with
      | none => rfl
      | some pr =>
        exfalso
        rw [hscan] at h2
        cases pr
        simp at h2
  · intro h i hi
    have hlt : (start + i) % s.phys_page_count < s.phys_page_count :=
      Nat.mod_lt _ hphys
    rcases h _ hlt with hlock | hfull
    · simp [hlock]
    · have hnone : scanSubmaps (s.submap ((start + i) % s.phys_page_count)) (subs i) = none := by
        rw [scanSubmaps_eq_none_iff _ _ (fun sub _ => hw _ sub)]
        exact hfull
      simp [hnone]

theorem scanPages_some (s : Slab) (start : Nat) (subs : Nat → Nat)
    (page sub bit : Nat)
    (hw : ∀ p q, s.submap p q < 2 ^ 32)
    (h : scanPages s start subs = some (page, sub, bit)) :
    page < s.phys_page_count ∧ (s.page_lock_refs page).testBit 63 = false ∧
    sub < 16 ∧ bit < 32 ∧ (s.submap page sub).testBit bit = false := by
  unfold scanPages at h
  obtain ⟨i, hi, hfi⟩ := List.exists_of_findSome?_eq_some h
  by_cases hlock : (s.page_lock_refs ((start + i) % s.phys_page_count)).testBit 63
  · simp [hlock] at hfi
  · simp only [hlock, if_false, Bool.false_eq_true, ite_false] at hfi
    cases hscan : scanSubmaps (s.submap ((start + i) % s.phys_page_count)) (subs i) with
    | none => rw [hscan] at hfi; simp at hfi
    | some pr =>
      obtain ⟨sub2, bit2⟩ := pr
      rw [hscan] at hfi
      have hpair := Option.some.inj hfi
      have hpg := congrArg (fun x => x.1) hpair
      have hsub := congrArg (fun x => x.2.1) hpair
      have hbit := congrArg (fun x => x.2.2) hpair
      simp only at hpg hsub hbit
      have hphys : 0 < s.phys_page_count := by
        rcases Nat.eq_zero_or_pos s.phys_page_count with h0 | h0
        · rw [h0] at hi; simp at hi
        · exact h0
      have hlt : (start + i) % s.phys_page_count < s.phys_page_count :=
        Nat.mod_lt _ hphys
      have hs := scanSubmaps_some _ _ _ _ (fun q _ => hw _ q) hscan
      subst hpg
      subst hsub
      subst hbit
      exact ⟨hlt, by simpa using hlock, hs.1, hs.2.1, hs.2.2⟩

/-! ### The initial bitmap of a page -/

theorem initPageWords_rec (spp : Nat) :
    initPageWords (spp + 1) =
      Function.update (initPageWords spp) (spp % SUBMAP_COUNT)
        (initPageWords spp (spp % SUBMAP_COUNT) &&&
          (FULL32 ^^^ (1 <<< (spp / SUBMAP_COUNT)))) := by
  unfold initPageWords
  rw [List.range_succ, List.foldl_append]
  simp

theorem initPageWords_lt (spp : Nat) : ∀ sub, initPageWords spp sub < 2 ^ 32 := by
  induction spp with
  | zero =>
    intro sub
    show FULL32 < 2 ^ 32
    norm_num [FULL32]
  | succ n ih =>
    intro sub
    rw [initPageWords_rec]
    by_cases hsame : sub = n % SUBMAP_COUNT
    · subst hsame
      rw [Function.update_same]
      exact lt_of_le_of_lt Nat.and_le_left (ih _)
    · rw [Function.update_noteq hsame]
      exact ih sub

theorem initPageWords_testBit (spp : Nat) (sub b : Nat) (hsub : sub < 16) (hb : b < 32) :
    (initPageWords spp sub).testBit b = decide (spp ≤ b * 16 + sub) := by
  induction spp with
  | zero =>
    show FULL32.testBit b = _
    rw [testBit_FULL32]
    simp [hb]
  | succ n ih =>
    rw [initPageWords_rec]
    by_cases hsame : sub = n % SUBMAP_COUNT
    · subst hsame
      rw [Function.update_same, Nat.testBit_and, Nat.testBit_xor, testBit_FULL32,
        Nat.one_shiftLeft, Nat.testBit_two_pow, ih]
      rw [decide_eq_true hb, Bool.true_xor]
      simp only [SUBMAP_COUNT]
      by_cases hdb : n / 16 = b
      · rw [decide_eq_true hdb]
        have hX : ¬ (n + 1 ≤ b * 16 + n % 16) := by omega
        rw [decide_eq_false hX]
        simp
      · rw [decide_eq_false hdb]
        simp only [Bool.not_false, Bool.and_true]
        rw [decide_eq_decide]
        omega
    · rw [Function.update_noteq hsame, ih]
      rw [decide_eq_decide]
      simp only [SUBMAP_COUNT] at hsame
      omega

/-! ### Popcount -/

theorem popcount32_lt_33 (v : Nat) : popcount32 v < 33 := by
  unfold popcount32
  calc Finset.sum (Finset.range 32) (fun b => if v.testBit b then 1 else 0)
      ≤ Finset.sum (Finset.range 32) (fun _ => 1) := by
        apply Finset.sum_le_sum
        intro i _
        split <;> omega
    _ = 32 := by simp
    _ < 33 := by omega

theorem popcount32_set (v bit : Nat) (hbit : bit < 32) (h : v.testBit bit = false) :
    popcount32 (v ||| (1 <<< bit)) = popcount32 v + 1 := by
  have hmem : bit ∈ Finset.range 32 := Finset.mem_range.mpr hbit
  unfold popcount32
  rw [Nat.one_shiftLeft]
  rw [← Finset.sum_erase_add _ _ hmem, ← Finset.sum_erase_add _ (fun b => if v.testBit b then 1 else 0) hmem]
  have h1 : ∀ b ∈ (Finset.range 32).erase bit,
      (if (v ||| 2 ^ bit).testBit b then 1 else 0) = (if v.testBit b then 1 else 0) := by
    intro b hbmem
    have hbne : b ≠ bit := (Finset.mem_erase.mp hbmem).1
    rw [Nat.testBit_or, Nat.testBit_two_pow]
    have : decide (bit = b) = false := by
      simp
      exact fun hh => hbne hh.symm
    rw [this, Bool.or_false]
  rw [Finset.sum_congr rfl h1]
  have h2 : (v ||| 2 ^ bit).testBit bit = true := by
    rw [Nat.testBit_or, Nat.testBit_two_pow]
    simp
  rw [h2, h]
  simp

theorem popcount32_clear (v bit : Nat) (hbit : bit < 32) (h : v.testBit bit = true) :
    popcount32 (v &&& (FULL32 ^^^ (1 <<< bit))) + 1 = popcount32 v := by
  have hmem : bit ∈ Finset.range 32 := Finset.mem_range.mpr hbit
  unfold popcount32
  rw [Nat.one_shiftLeft]
  rw [← Finset.sum_erase_add _ _ hmem, ← Finset.sum_erase_add _ (fun b => if v.testBit b then 1 else 0) hmem]
  have h1 : ∀ b ∈ (Finset.range 32).erase bit,
      (if (v &&& (FULL32 ^^^ 2 ^ bit)).testBit b then 1 else 0) = (if v.testBit b then 1 else 0) := by
    intro b hbmem
    have hbne : b ≠ bit := (Finset.mem_erase.mp hbmem).1
    have hb32 : b < 32 := Finset.mem_range.mp (Finset.mem_erase.mp hbmem).2
    rw [Nat.testBit_and, Nat.testBit_xor, testBit_FULL32, Nat.testBit_two_pow]
    have hd1 : decide (b < 32) = true := by simp [hb32]
    have hd2 : decide (bit = b) = false := by
      simp
      exact fun hh => hbne hh.symm
    rw [hd1, hd2]
    simp
  rw [Finset.sum_congr rfl h1]
  have h2 : (v &&& (FULL32 ^^^ 2 ^ bit)).testBit bit = false := by
    rw [Nat.testBit_and, Nat.testBit_xor, testBit_FULL32, Nat.testBit_two_pow]
    simp [hbit]
  rw [h2, h]
  simp

/-! ### Per-page reference counts of the outstanding offsets -/

theorem pageRefs_nil (p : Nat) : pageRefs [] p = 0 := rfl

theorem pageRefs_cons (off : Nat) (out : List Nat) (p : Nat) :
    pageRefs (off :: out) p = pageRefs out p + (if off / PAGE_SIZE = p then 1 else 0) := by
  unfold pageRefs
  rw [List.countP_cons]
  congr 1
  by_cases h : off / PAGE_SIZE = p <;> simp [h]

theorem pageRefs_erase (out : List Nat) (off : Nat) (h : off ∈ out) (p : Nat) :
    pageRefs out p = pageRefs (out.erase off) p + (if off / PAGE_SIZE = p then 1 else 0) := by
  have hperm := List.perm_cons_erase h
  unfold pageRefs
  rw [hperm.countP_eq, List.countP_cons]
  congr 1
  by_cases hc : off / PAGE_SIZE = p <;> simp [hc]

theorem pageRefs_le_length (out : List Nat) (p : Nat) : pageRefs out p ≤ out.length :=
  List.countP_le_length _

theorem nodup_length_le (out : List Nat) (N : Nat) (hnd : out.Nodup)
    (hlt : ∀ off ∈ out, off < N) : out.length ≤ N := by
  classical
  have hsub : out.toFinset ⊆ Finset.range N := by
    intro x hx
    rw [List.mem_toFinset] at hx
    exact Finset.mem_range.mpr (hlt x hx)
  have := Finset.card_le_card hsub
  rw [List.toFinset_card_of_nodup hnd] at this
  simpa using this

/-! ### Sum-update lemmas -/

theorem sum_update_nat (f : Nat → Nat) (n i x : Nat) (hi : i < n) :
    Finset.sum (Finset.range n) (Function.update f i x) + f i =
    Finset.sum (Finset.range n) f + x := by
  have hmem : i ∈ Finset.range n := Finset.mem_range.mpr hi
  rw [Finset.sum_update_of_mem hmem]
  rw [← Finset.sum_erase_add (Finset.range n) f hmem]
  rw [Finset.erase_eq]
  ring

theorem pagePop_update (w : Nat → Nat) (sub v : Nat) (hsub : sub < 16) :
    pagePop (Function.update w sub v) + popcount32 (w sub) = pagePop w + popcount32 v := by
  unfold pagePop
  have hcomp : ∀ q ∈ Finset.range 16,
      popcount32 (Function.update w sub v q) =
      Function.update (fun q => popcount32 (w q)) sub (popcount32 v) q := by
    intro q _
    by_cases hq : q = sub
    · subst hq
      rw [Function.update_same, Function.update_same]
    · rw [Function.update_noteq hq, Function.update_noteq hq]
  rw [Finset.sum_congr rfl hcomp]
  exact sum_update_nat (fun q => popcount32 (w q)) 16 sub (popcount32 v) hsub

theorem totalPopW_update (virt : Nat) (submap : Nat → Nat → Nat) (page : Nat)
    (W : Nat → Nat) (hpage : page < virt) :
    totalPopW virt (Function.update submap page W) + pagePop (submap page) =
    totalPopW virt submap + pagePop W := by
  unfold totalPopW
  have hcomp : ∀ q ∈ Finset.range virt,
      pagePop (Function.update submap page W q) =
      Function.update (fun q => pagePop (submap q)) page (pagePop W) q := by
    intro q _
    by_cases hq : q = page
    · subst hq
      rw [Function.update_same, Function.update_same]
    · rw [Function.update_noteq hq, Function.update_noteq hq]
  rw [Finset.sum_congr rfl hcomp]
  exact sum_update_nat (fun q => pagePop (submap q)) virt page (pagePop W) hpage

theorem pagePop_initPageWords (spp : Nat) (hspp : spp ≤ 512) :
    pagePop (initPageWords spp) + spp = 512 := by
  induction spp with
  | zero =>
    have : pagePop (initPageWords 0) = 512 := by
      unfold pagePop
      have hall : ∀ sub ∈ Finset.range 16, popcount32 (initPageWords 0 sub) = 32 := by
        intro sub _
        show popcount32 FULL32 = 32
        unfold popcount32
        have : ∀ b ∈ Finset.range 32, (if FULL32.testBit b then 1 else 0) = 1 := by
          intro b hbm
          rw [testBit_FULL32]
          simp [Finset.mem_range.mp hbm]
        rw [Finset.sum_congr rfl this]
        simp
      rw [Finset.sum_congr rfl hall]
      simp
    omega
  | succ n ih =>
    have hn : n ≤ 512 := by omega
    have hsubn : n % SUBMAP_COUNT < 16 := by
      simp only [SUBMAP_COUNT]
      omega
    have hbn : n / SUBMAP_COUNT < 32 := by
      simp only [SUBMAP_COUNT]
      omega
    have hset : (initPageWords n (n % SUBMAP_COUNT)).testBit (n / SUBMAP_COUNT) = true := by
      rw [initPageWords_testBit n _ _ hsubn hbn]
      simp only [SUBMAP_COUNT]
      have := Nat.div_add_mod n 16
      simp
      omega
    have hpc := popcount32_clear (initPageWords n (n % SUBMAP_COUNT)) (n / SUBMAP_COUNT) hbn hset
    have hup := pagePop_update (initPageWords n) (n % SUBMAP_COUNT)
      (initPageWords n (n % SUBMAP_COUNT) &&& (FULL32 ^^^ (1 <<< (n / SUBMAP_COUNT)))) hsubn
    rw [initPageWords_rec]
    omega

/-! ### The reachability invariant -/

/-- Invariant tying a slab state to the list `out` of outstanding offsets.
`bits_iff` says a bitmap bit is set iff it is a sentinel (slot index at or
beyond `slot_count_per_page`) or its slot's offset is outstanding; `refs` says
every lock/ref word is exactly a drain-lock bit plus the number of outstanding
offsets on that page. -/
structure Inv (s : Slab) (out : List Nat) : Prop where
  virt_lt : s.virt_page_count < 2 ^ 32
  obj_lb : 8 ≤ s.obj_size
  obj_ub : s.obj_size ≤ 4096
  spp_def : s.slot_count_per_page = 4096 / s.obj_size
  phys_pos : 1 ≤ s.phys_page_count
  phys_le : s.phys_page_count ≤ s.virt_page_count
  alloc_eq : s.allocated_slot_count = out.length
  nodup : out.Nodup
  out_form : ∀ off ∈ out, ∃ p sl, p < s.phys_page_count ∧ sl < s.slot_count_per_page ∧
      off = p * 4096 + sl * s.obj_size
  words_lt : ∀ p sub, s.submap p sub < 2 ^ 32
  bits_iff : ∀ p sub b, p < s.virt_page_count → sub < 16 → b < 32 →
      ((s.submap p sub).testBit b = true ↔
        (s.slot_count_per_page ≤ b * 16 + sub ∨
          (p * 4096 + (b * 16 + sub) * s.obj_size) ∈ out))
  refs : ∀ p, ∃ L : Bool, s.page_lock_refs p = (cond L (2 ^ 63) 0) + pageRefs out p
  pop_eq : s.allocated_slot_count +
      s.virt_page_count * (512 - s.slot_count_per_page) = totalPop s

theorem Inv.obj_pos {s : Slab} {out : List Nat} (h : Inv s out) : 0 < s.obj_size := by
  have := h.obj_lb
  omega

theorem Inv.spp_pos {s : Slab} {out : List Nat} (h : Inv s out) :
    1 ≤ s.slot_count_per_page := by
  rw [h.spp_def]
  have h1 : s.obj_size ≤ 4096 := h.obj_ub
  have h2 : 0 < s.obj_size := h.obj_pos
  exact (Nat.le_div_iff_mul_le h2).mpr (by omega)

theorem Inv.spp_le {s : Slab} {out : List Nat} (h : Inv s out) :
    s.slot_count_per_page ≤ 512 := by
  rw [h.spp_def]
  calc 4096 / s.obj_size ≤ 4096 / 8 := Nat.div_le_div_left h.obj_lb (by omega)
    _ = 512 := by norm_num

theorem Inv.spp_obj_le {s : Slab} {out : List Nat} (h : Inv s out) :
    s.slot_count_per_page * s.obj_size ≤ 4096 := by
  rw [h.spp_def]
  exact Nat.div_mul_le_self 4096 s.obj_size

theorem Inv.slot_off_lt {s : Slab} {out : List Nat} (h : Inv s out) (sl : Nat)
    (hsl : sl < s.slot_count_per_page) : sl * s.obj_size + s.obj_size ≤ 4096 := by
  have h1 := h.spp_obj_le
  have h2 : (sl + 1) * s.obj_size ≤ s.slot_count_per_page * s.obj_size :=
    Nat.mul_le_mul_right _ hsl
  calc sl * s.obj_size + s.obj_size = (sl + 1) * s.obj_size := by ring
    _ ≤ s.slot_count_per_page * s.obj_size := h2
    _ ≤ 4096 := h1

theorem Inv.off_div {s : Slab} {out : List Nat} (h : Inv s out) (p sl : Nat)
    (hsl : sl < s.slot_count_per_page) :
    (p * 4096 + sl * s.obj_size) / 4096 = p ∧ (p * 4096 + sl * s.obj_size) % 4096 = sl * s.obj_size := by
  have h1 := h.slot_off_lt sl hsl
  have h2 : sl * s.obj_size < 4096 := by
    have := h.obj_lb
    omega
  constructor
  · rw [Nat.add_comm, Nat.add_mul_div_right _ _ (by omega : (0:Nat) < 4096),
      Nat.div_eq_of_lt h2]
    omega
  · rw [Nat.add_comm, Nat.add_mul_mod_self_right, Nat.mod_eq_of_lt h2]

theorem Inv.out_lt {s : Slab} {out : List Nat} (h : Inv s out) :
    ∀ off ∈ out, off < s.virt_page_count * 4096 := by
  intro off hmem
  obtain ⟨p, sl, hp, hsl, rfl⟩ := h.out_form off hmem
  have h1 := h.slot_off_lt sl hsl
  have h2 : p + 1 ≤ s.virt_page_count := le_trans hp h.phys_le
  have h3 : (p + 1) * 4096 ≤ s.virt_page_count * 4096 := Nat.mul_le_mul_right _ h2
  have := h.obj_pos
  nlinarith

theorem Inv.out_page_lt {s : Slab} {out : List Nat} (h : Inv s out) :
    ∀ off ∈ out, off / 4096 < s.phys_page_count := by
  intro off hmem
  obtain ⟨p, sl, hp, hsl, rfl⟩ := h.out_form off hmem
  rw [(h.off_div p sl hsl).1]
  exact hp

theorem Inv.len_le {s : Slab} {out : List Nat} (h : Inv s out) :
    out.length ≤ s.virt_page_count * 4096 :=
  nodup_length_le out _ h.nodup h.out_lt

theorem Inv.refs_lt {s : Slab} {out : List Nat} (h : Inv s out) (p : Nat) :
    pageRefs out p < 2 ^ 63 - 1 := by
  have h1 := pageRefs_le_length out p
  have h2 := h.len_le
  have h3 := h.virt_lt
  omega

theorem Inv.word_decomp {s : Slab} {out : List Nat} (h : Inv s out) (p : Nat) :
    ∃ L : Bool, s.page_lock_refs p = (cond L (2 ^ 63) 0) + pageRefs out p ∧
      (s.page_lock_refs p).testBit 63 = L ∧ refPart (s.page_lock_refs p) = pageRefs out p := by
  obtain ⟨L, hL⟩ := h.refs p
  have hR : pageRefs out p < 2 ^ 63 := by
    have := h.refs_lt p
    omega
  exact ⟨L, hL, by rw [hL]; exact testBit63_word L _ hR,
    by rw [hL]; exact refPart_word L _ hR⟩

/-! ### Invariant preservation: expand and shrink -/

theorem expand_submap (s : Slab) :
    (adaptive_phys_page_expand s).submap = s.submap := by
  unfold adaptive_phys_page_expand
  split
  · rfl
  · split <;> rfl

theorem expand_consts (s : Slab) :
    (adaptive_phys_page_expand s).virt_page_count = s.virt_page_count ∧
    (adaptive_phys_page_expand s).obj_size = s.obj_size ∧
    (adaptive_phys_page_expand s).slot_count_per_page = s.slot_count_per_page ∧
    (adaptive_phys_page_expand s).allocated_slot_count = s.allocated_slot_count := by
  unfold adaptive_phys_page_expand
  split
  · exact ⟨rfl, rfl, rfl, rfl⟩
  · split <;> exact ⟨rfl, rfl, rfl, rfl⟩

theorem Inv_expand {s : Slab} {out : List Nat} (h : Inv s out) :
    Inv (adaptive_phys_page_expand s) out := by
  unfold adaptive_phys_page_expand
  split
  · exact h
  · split
    · rename_i hthr hlt
      have hpos := h.phys_pos
      refine ⟨h.virt_lt, h.obj_lb, h.obj_ub, h.spp_def,
        by show 1 ≤ s.phys_page_count + 1; omega,
        by show s.phys_page_count + 1 ≤ s.virt_page_count; omega,
        h.alloc_eq, h.nodup, ?_, h.words_lt, h.bits_iff, ?_, h.pop_eq⟩
      · intro off hmem
        obtain ⟨p, sl, hp, hsl, rfl⟩ := h.out_form off hmem
        exact ⟨p, sl, by show p < s.phys_page_count + 1; omega, hsl, rfl⟩
      · intro p
        by_cases hp : p = s.phys_page_count
        · obtain ⟨L, hL⟩ := h.refs s.phys_page_count
          have hR : pageRefs out s.phys_page_count < 2 ^ 63 := by
            have := h.refs_lt s.phys_page_count
            omega
          refine ⟨false, ?_⟩
          dsimp only
          rw [hp, Function.update_same, hL]
          simp only [PAGE_LOCK_MASK]
          rw [word_land_low L _ hR]
          simp
        · obtain ⟨L, hL⟩ := h.refs p
          refine ⟨L, ?_⟩
          dsimp only
          rw [Function.update_noteq hp]
          exact hL
    · exact h

theorem Inv_shrink {s : Slab} {out : List Nat} (h : Inv s out) :
    Inv (adaptive_phys_page_shrink s) out := by
  unfold adaptive_phys_page_shrink
  dsimp only
  split
  · exact h
  · split
    · exact h
    · rename_i hthr hlast
      obtain ⟨L, hL, htb, hrp⟩ := h.word_decomp (s.phys_page_count - 1)
      have hR : pageRefs out (s.phys_page_count - 1) < 2 ^ 63 := by
        have := h.refs_lt (s.phys_page_count - 1)
        omega
      have hlor : s.page_lock_refs (s.phys_page_count - 1) ||| PAGE_LOCK_MASK =
          2 ^ 63 + pageRefs out (s.phys_page_count - 1) := by
        rw [hL]
        simp only [PAGE_LOCK_MASK]
        exact word_lor_high L _ hR
      split
      · rename_i hrecl
        -- reclaimable: the locked word is exactly the mask, so no outstanding
        -- offset lies on the last page and it can be unpublished
        have hrecl2 : s.page_lock_refs (s.phys_page_count - 1) ||| PAGE_LOCK_MASK =
            PAGE_LOCK_MASK := by
          simpa [is_page_reclaimable] using hrecl
        have hR0 : pageRefs out (s.phys_page_count - 1) = 0 := by
          have h2 : (2:Nat) ^ 63 + pageRefs out (s.phys_page_count - 1) = PAGE_LOCK_MASK := by
            rw [← hlor]
            exact hrecl2
          simp only [PAGE_LOCK_MASK] at h2
          omega
        have hout_last : ∀ off ∈ out, off / 4096 ≠ s.phys_page_count - 1 := by
          intro off hmem heq
          have hpos : 0 < pageRefs out (s.phys_page_count - 1) := by
            unfold pageRefs
            rw [List.countP_pos_iff]
            exact ⟨off, hmem, by simp [PAGE_SIZE, heq]⟩
          omega
        have hpos := h.phys_pos
        have hple := h.phys_le
        refine ⟨h.virt_lt, h.obj_lb, h.obj_ub, h.spp_def,
          by show 1 ≤ s.phys_page_count - 1; omega,
          by show s.phys_page_count - 1 ≤ s.virt_page_count; omega,
          h.alloc_eq, h.nodup, ?_, h.words_lt, h.bits_iff, ?_, h.pop_eq⟩
        · intro off hmem
          obtain ⟨p, sl, hp, hsl, hoff⟩ := h.out_form off hmem
          have hne := hout_last off hmem
          rw [hoff, (h.off_div p sl hsl).1] at hne
          exact ⟨p, sl, by show p < s.phys_page_count - 1; omega, hsl, hoff⟩
        · intro p
          by_cases hp : p = s.phys_page_count - 1
          · refine ⟨true, ?_⟩
            dsimp only
            rw [hp, Function.update_same, hlor, hR0]
            rfl
          · obtain ⟨L2, hL2⟩ := h.refs p
            refine ⟨L2, ?_⟩
            dsimp only
            rw [Function.update_noteq hp]
            exact hL2
      · refine ⟨h.virt_lt, h.obj_lb, h.obj_ub, h.spp_def, h.phys_pos, h.phys_le,
          h.alloc_eq, h.nodup, h.out_form, h.words_lt, h.bits_iff, ?_, h.pop_eq⟩
        intro p
        by_cases hp : p = s.phys_page_count - 1
        · refine ⟨true, ?_⟩
          dsimp only
          rw [hp, Function.update_same, hlor]
          rfl
        · obtain ⟨L2, hL2⟩ := h.refs p
          refine ⟨L2, ?_⟩
          dsimp only
          rw [Function.update_noteq hp]
          exact hL2

theorem shrink_submap (s : Slab) :
    (adaptive_phys_page_shrink s).submap = s.submap := by
  unfold adaptive_phys_page_shrink
  dsimp only
  split
  · rfl
  · split
    · rfl
    · split <;> rfl

theorem shrink_consts (s : Slab) :
    (adaptive_phys_page_shrink s).virt_page_count = s.virt_page_count ∧
    (adaptive_phys_page_shrink s).obj_size = s.obj_size ∧
    (adaptive_phys_page_shrink s).slot_count_per_page = s.slot_count_per_page ∧
    (adaptive_phys_page_shrink s).allocated_slot_count = s.allocated_slot_count := by
  unfold adaptive_phys_page_shrink
  dsimp only
  split
  · exact ⟨rfl, rfl, rfl, rfl⟩
  · split
    · exact ⟨rfl, rfl, rfl, rfl⟩
    · split <;> exact ⟨rfl, rfl, rfl, rfl⟩

/-! ### Invariant preservation: free -/

theorem Inv.off_inj {s : Slab} {out : List Nat} (h : Inv s out) {p sl q sl2 : Nat}
    (hsl : sl < s.slot_count_per_page) (hsl2 : sl2 < s.slot_count_per_page)
    (heq : p * 4096 + sl * s.obj_size = q * 4096 + sl2 * s.obj_size) :
    p = q ∧ sl = sl2 := by
  have h1 := (h.off_div p sl hsl).1
  have h2 := (h.off_div q sl2 hsl2).1
  have hp : p = q := by rw [← h1, ← h2, heq]
  subst hp
  have hm : sl * s.obj_size = sl2 * s.obj_size := by omega
  exact ⟨rfl, Nat.eq_of_mul_eq_mul_right h.obj_pos hm⟩

theorem Inv_free {s : Slab} {out : List Nat} (h : Inv s out) {off : Nat} (hmem : off ∈ out) :
    Inv (bmslab_free s off) (out.erase off) := by
  obtain ⟨p0, sl0, hp0, hsl0, hoff⟩ := h.out_form off hmem
  have hobj := h.obj_pos
  have hp0v : p0 < s.virt_page_count := lt_of_lt_of_le hp0 h.phys_le
  have hsl512 : sl0 < 512 := lt_of_lt_of_le hsl0 h.spp_le
  have hsub0 : sl0 % SUBMAP_COUNT < 16 := by
    simp only [SUBMAP_COUNT]
    omega
  have hbit0 : sl0 / SUBMAP_COUNT < 32 := by
    simp only [SUBMAP_COUNT]
    omega
  have hXsl0 : (sl0 / SUBMAP_COUNT) * 16 + sl0 % SUBMAP_COUNT = sl0 := by
    simp only [SUBMAP_COUNT]
    omega
  have hpage : off / PAGE_SIZE = p0 := by
    rw [hoff]
    simpa [PAGE_SIZE] using (h.off_div p0 sl0 hsl0).1
  have hmod : off % PAGE_SIZE = sl0 * s.obj_size := by
    rw [hoff]
    simpa [PAGE_SIZE] using (h.off_div p0 sl0 hsl0).2
  have hslot : off % PAGE_SIZE / s.obj_size = sl0 := by
    rw [hmod]
    exact Nat.mul_div_cancel sl0 hobj
  have htb : (s.submap p0 (sl0 % SUBMAP_COUNT)).testBit (sl0 / SUBMAP_COUNT) = true := by
    rw [h.bits_iff p0 (sl0 % SUBMAP_COUNT) (sl0 / SUBMAP_COUNT) hp0v hsub0 hbit0]
    right
    rw [hXsl0, ← hoff]
    exact hmem
  have hvirt2 : ¬ (s.virt_page_count ≤ p0) := by omega
  unfold bmslab_free
  dsimp only
  rw [hpage, hslot, if_neg hvirt2]
  apply Inv_shrink
  refine ⟨h.virt_lt, h.obj_lb, h.obj_ub, h.spp_def, h.phys_pos, h.phys_le, ?_, h.nodup.erase off, ?_, ?_, ?_, ?_, ?_⟩
  · show s.allocated_slot_count - 1 = (out.erase off).length
    rw [List.length_erase_of_mem hmem, h.alloc_eq]
  · intro off2 hmem2
    exact h.out_form off2 (List.mem_of_mem_erase hmem2)
  · intro p sub
    dsimp only
    by_cases hp : p = p0
    · rw [hp, Function.update_same]
      by_cases hq : sub = sl0 % SUBMAP_COUNT
      · rw [hq, Function.update_same]
        exact lt_of_le_of_lt Nat.and_le_left (h.words_lt p0 _)
      · rw [Function.update_noteq hq]
        exact h.words_lt p0 sub
    · rw [Function.update_noteq hp]
      exact h.words_lt p sub
  · intro p sub b hpv hsub hb
    dsimp only
    by_cases hp : p = p0
    · rw [hp, Function.update_same]
      by_cases hq : sub = sl0 % SUBMAP_COUNT
      · rw [hq, Function.update_same]
        rw [Nat.testBit_and, Nat.testBit_xor, testBit_FULL32, Nat.one_shiftLeft,
          Nat.testBit_two_pow, decide_eq_true hb]
        by_cases hbb : sl0 / SUBMAP_COUNT = b
        · rw [decide_eq_true hbb]
          have hXsl : b * 16 + sl0 % SUBMAP_COUNT = sl0 := by
            rw [← hbb]
            exact hXsl0
          rw [hXsl, ← hoff]
          constructor
          · intro hfalse
            simp at hfalse
          · intro hrhs
            exfalso
            rcases hrhs with hs | hm
            · omega
            · rw [h.nodup.mem_erase_iff] at hm
              exact hm.1 rfl
        · rw [decide_eq_false hbb]
          simp only [Bool.xor_false, Bool.and_true]
          rw [h.bits_iff p0 (sl0 % SUBMAP_COUNT) b hp0v hsub0 hb]
          by_cases hsent : s.slot_count_per_page ≤ b * 16 + sl0 % SUBMAP_COUNT
          · simp [hsent]
          · have hXne : b * 16 + sl0 % SUBMAP_COUNT ≠ sl0 := by
              intro hX
              apply hbb
              simp only [SUBMAP_COUNT] at hX ⊢
              omega
            have hY : p0 * 4096 + (b * 16 + sl0 % SUBMAP_COUNT) * s.obj_size ≠ off := by
              intro hY
              rw [hoff] at hY
              exact hXne (h.off_inj (by omega) hsl0 hY).2
            rw [h.nodup.mem_erase_iff]
            simp [hY]
      · rw [Function.update_noteq hq]
        rw [h.bits_iff p0 sub b hp0v hsub hb]
        by_cases hsent : s.slot_count_per_page ≤ b * 16 + sub
        · simp [hsent]
        · have hXne : b * 16 + sub ≠ sl0 := by
            intro hX
            apply hq
            simp only [SUBMAP_COUNT] at hX ⊢
            omega
          have hY : p0 * 4096 + (b * 16 + sub) * s.obj_size ≠ off := by
            intro hY
            rw [hoff] at hY
            exact hXne (h.off_inj (by omega) hsl0 hY).2
          rw [h.nodup.mem_erase_iff]
          simp [hY]
    · rw [Function.update_noteq hp]
      rw [h.bits_iff p sub b hpv hsub hb]
      by_cases hsent : s.slot_count_per_page ≤ b * 16 + sub
      · simp [hsent]
      · have hY : p * 4096 + (b * 16 + sub) * s.obj_size ≠ off := by
          intro hY
          rw [hoff] at hY
          exact hp (h.off_inj (by omega) hsl0 hY).1
        rw [h.nodup.mem_erase_iff]
        simp [hY]
  · intro p
    dsimp only
    by_cases hp : p = p0
    · obtain ⟨L, hL⟩ := h.refs p0
      have hcnt : 0 < pageRefs out p0 := by
        unfold pageRefs
        rw [List.countP_pos_iff]
        exact ⟨off, hmem, by simp [hpage]⟩
      have herase := pageRefs_erase out off hmem p0
      rw [if_pos hpage] at herase
      refine ⟨L, ?_⟩
      rw [hp, Function.update_same, hL]
      cases L
      · simp only [cond]
        omega
      · simp only [cond]
        omega
    · obtain ⟨L, hL⟩ := h.refs p
      refine ⟨L, ?_⟩
      rw [Function.update_noteq hp, hL]
      have herase := pageRefs_erase out off hmem p
      have hoffp : ¬ (off / PAGE_SIZE = p) := by
        rw [hpage]
        exact fun hh => hp hh.symm
      rw [if_neg hoffp] at herase
      omega
  · have hclear := popcount32_clear (s.submap p0 (sl0 % SUBMAP_COUNT)) (sl0 / SUBMAP_COUNT) hbit0 htb
    have hpp := pagePop_update (s.submap p0) (sl0 % SUBMAP_COUNT)
      (s.submap p0 (sl0 % SUBMAP_COUNT) &&& (FULL32 ^^^ (1 <<< (sl0 / SUBMAP_COUNT)))) hsub0
    have htp := totalPopW_update s.virt_page_count s.submap p0
      (Function.update (s.submap p0) (sl0 % SUBMAP_COUNT)
        (s.submap p0 (sl0 % SUBMAP_COUNT) &&& (FULL32 ^^^ (1 <<< (sl0 / SUBMAP_COUNT))))) hp0v
    have hpop : s.allocated_slot_count + s.virt_page_count * (512 - s.slot_count_per_page) =
        totalPopW s.virt_page_count s.submap := h.pop_eq
    have hlen : 0 < out.length := List.length_pos_of_mem hmem
    have halloc := h.alloc_eq
    show s.allocated_slot_count - 1 + s.virt_page_count * (512 - s.slot_count_per_page) =
      totalPopW s.virt_page_count (Function.update s.submap p0
        (Function.update (s.submap p0) (sl0 % SUBMAP_COUNT)
          (s.submap p0 (sl0 % SUBMAP_COUNT) &&& (FULL32 ^^^ (1 <<< (sl0 / SUBMAP_COUNT))))))
    omega

/-! ### Invariant preservation: a successful allocation round -/

theorem allocRound_of_scan_none {s : Slab} {ph : Nat} {sh : Nat → Nat}
    (hscan : scanPages s ph sh = none) : allocRound s ph sh = (none, s) := by
  unfold allocRound
  rw [hscan]

theorem allocRound_of_scan_some {s : Slab} {ph : Nat} {sh : Nat → Nat} {page sub bit : Nat}
    (hscan : scanPages s ph sh = some (page, sub, bit)) :
    allocRound s ph sh =
      (some (page * PAGE_SIZE + (bit * SUBMAP_COUNT + sub) * s.obj_size),
        adaptive_phys_page_expand
          { s with
            page_lock_refs :=
              Function.update s.page_lock_refs page (s.page_lock_refs page + 1)
            submap :=
              Function.update s.submap page
                (Function.update (s.submap page) sub (s.submap page sub ||| (1 <<< bit)))
            allocated_slot_count := s.allocated_slot_count + 1 }) := by
  unfold allocRound
  rw [hscan]

theorem Inv_allocStep {s : Slab} {out : List Nat} (h : Inv s out) {ph : Nat} {sh : Nat → Nat}
    {page sub bit : Nat} (hscan : scanPages s ph sh = some (page, sub, bit)) :
    bit * 16 + sub < s.slot_count_per_page ∧
    (page * 4096 + (bit * 16 + sub) * s.obj_size) ∉ out ∧
    page < s.phys_page_count ∧
    Inv { s with
        page_lock_refs := Function.update s.page_lock_refs page (s.page_lock_refs page + 1)
        submap := Function.update s.submap page
          (Function.update (s.submap page) sub (s.submap page sub ||| (1 <<< bit)))
        allocated_slot_count := s.allocated_slot_count + 1 }
      ((page * 4096 + (bit * 16 + sub) * s.obj_size) :: out) := by
  obtain ⟨hpp, hlock, hsub, hbit, htb⟩ := scanPages_some s ph sh page sub bit h.words_lt hscan
  have hpv : page < s.virt_page_count := lt_of_lt_of_le hpp h.phys_le
  have hiff := h.bits_iff page sub bit hpv hsub hbit
  have hno : ¬ (s.slot_count_per_page ≤ bit * 16 + sub ∨
      (page * 4096 + (bit * 16 + sub) * s.obj_size) ∈ out) := by
    intro hr
    have := hiff.mpr hr
    rw [htb] at this
    exact Bool.false_ne_true this
  rw [not_or] at hno
  obtain ⟨hslt0, hnmem⟩ := hno
  have hslt : bit * 16 + sub < s.slot_count_per_page := by omega
  refine ⟨hslt, hnmem, hpp, ?_⟩
  refine ⟨h.virt_lt, h.obj_lb, h.obj_ub, h.spp_def, h.phys_pos, h.phys_le, ?_, ?_, ?_, ?_, ?_, ?_, ?_⟩
  · show s.allocated_slot_count + 1 = _
    rw [List.length_cons, h.alloc_eq]
  · exact List.nodup_cons.mpr ⟨hnmem, h.nodup⟩
  · intro off2 hmem2
    rcases List.mem_cons.mp hmem2 with heq | hmem2
    · exact ⟨page, bit * 16 + sub, hpp, hslt, heq⟩
    · exact h.out_form off2 hmem2
  · intro p q
    dsimp only
    by_cases hp : p = page
    · rw [hp, Function.update_same]
      by_cases hq : q = sub
      · rw [hq, Function.update_same]
        have h2b : (1 <<< bit) < 2 ^ 32 := by
          rw [Nat.one_shiftLeft]
          exact Nat.pow_lt_pow_of_lt (by omega) hbit
        exact Nat.or_lt_two_pow (h.words_lt page sub) h2b
      · rw [Function.update_noteq hq]
        exact h.words_lt page q
    · rw [Function.update_noteq hp]
      exact h.words_lt p q
  · intro p q b hpv2 hq hb
    dsimp only
    by_cases hp : p = page
    · rw [hp, Function.update_same]
      by_cases hqq : q = sub
      · rw [hqq, Function.update_same]
        rw [Nat.testBit_or, Nat.one_shiftLeft, Nat.testBit_two_pow]
        by_cases hbb : bit = b
        · rw [decide_eq_true hbb, Bool.or_true, ← hbb]
          simp [List.mem_cons]
        · rw [decide_eq_false hbb, Bool.or_false]
          rw [h.bits_iff page sub b hpv hsub hb]
          by_cases hsent : s.slot_count_per_page ≤ b * 16 + sub
          · simp [hsent]
          · have hY : page * 4096 + (b * 16 + sub) * s.obj_size ≠
                page * 4096 + (bit * 16 + sub) * s.obj_size := by
              intro hE
              have h2 := (h.off_inj (by omega) (by omega) hE).2
              omega
            simp [List.mem_cons, hY]
      · rw [Function.update_noteq hqq]
        rw [h.bits_iff page q b hpv hq hb]
        by_cases hsent : s.slot_count_per_page ≤ b * 16 + q
        · simp [hsent]
        · have hY : page * 4096 + (b * 16 + q) * s.obj_size ≠
              page * 4096 + (bit * 16 + sub) * s.obj_size := by
            intro hE
            have h2 := (h.off_inj (by omega) (by omega) hE).2
            apply hqq
            omega
          simp [List.mem_cons, hY]
    · rw [Function.update_noteq hp]
      rw [h.bits_iff p q b hpv2 hq hb]
      by_cases hsent : s.slot_count_per_page ≤ b * 16 + q
      · simp [hsent]
      · have hY : p * 4096 + (b * 16 + q) * s.obj_size ≠
            page * 4096 + (bit * 16 + sub) * s.obj_size := by
          intro hE
          exact hp (h.off_inj (by omega) (by omega) hE).1
        simp [List.mem_cons, hY]
  · intro p
    dsimp only
    have hoffdiv : (page * 4096 + (bit * 16 + sub) * s.obj_size) / PAGE_SIZE = page := by
      simpa [PAGE_SIZE] using (h.off_div page (bit * 16 + sub) hslt).1
    by_cases hp : p = page
    · obtain ⟨L, hL, htb63, _⟩ := h.word_decomp page
      have hLfalse : L = false := by
        rw [← htb63]
        exact hlock
      refine ⟨false, ?_⟩
      rw [hp, Function.update_same, hL, hLfalse, pageRefs_cons, if_pos hoffdiv]
      simp only [cond]
      omega
    · obtain ⟨L, hL⟩ := h.refs p
      refine ⟨L, ?_⟩
      rw [Function.update_noteq hp, hL, pageRefs_cons,
        if_neg (by rw [hoffdiv]; exact fun hh => hp hh.symm)]
      omega
  · have hset := popcount32_set (s.submap page sub) bit hbit htb
    have hpp2 := pagePop_update (s.submap page) sub (s.submap page sub ||| (1 <<< bit)) hsub
    have htp := totalPopW_update s.virt_page_count s.submap page
      (Function.update (s.submap page) sub (s.submap page sub ||| (1 <<< bit))) hpv
    have hpop : s.allocated_slot_count + s.virt_page_count * (512 - s.slot_count_per_page) =
        totalPopW s.virt_page_count s.submap := h.pop_eq
    have halloc := h.alloc_eq
    show s.allocated_slot_count + 1 + s.virt_page_count * (512 - s.slot_count_per_page) =
      totalPopW s.virt_page_count (Function.update s.submap page
        (Function.update (s.submap page) sub (s.submap page sub ||| (1 <<< bit))))
    omega

/-! ### The retry loop of bmslab_alloc -/

/-- Every live page is drain-locked or has a fully-used bitmap: exactly the
condition under which one trip of the page scan finds nothing. -/
def allFullOrLocked (s : Slab) : Prop :=
  ∀ p, p < s.phys_page_count →
    (s.page_lock_refs p).testBit 63 = true ∨ ∀ sub, sub < 16 → s.submap p sub = FULL32

theorem bmslab_alloc_zero (s : Slab) (rounds : Nat → Nat × (Nat → Nat)) (k : Nat) :
    bmslab_alloc s rounds k 0 = (none, s) := rfl

theorem bmslab_alloc_succ (s : Slab) (rounds : Nat → Nat × (Nat → Nat)) (k fuel : Nat) :
    bmslab_alloc s rounds k (fuel + 1) =
      match allocRound s (rounds k).1 (rounds k).2 with
      | (some off, s') => (some (some off), s')
      | (none, s') =>
        if s'.phys_page_count < s'.virt_page_count then
          bmslab_alloc (adaptive_phys_page_expand s') rounds (k + 1) fuel
        else (some none, s') := rfl

theorem expand_cases (s : Slab) :
    adaptive_phys_page_expand s = s ∨
    (get_max_slot_count s / 2 ≤ s.allocated_slot_count ∧
     s.phys_page_count < s.virt_page_count ∧
     adaptive_phys_page_expand s =
       { s with
         phys_page_count := s.phys_page_count + 1
         page_lock_refs := Function.update s.page_lock_refs s.phys_page_count
           (s.page_lock_refs s.phys_page_count &&& (PAGE_LOCK_MASK - 1)) }) := by
  unfold adaptive_phys_page_expand
  split
  · left
    rfl
  · split
    · right
      rename_i hthr hlt
      exact ⟨by omega, hlt, rfl⟩
    · left
      rfl

theorem pageRefs_eq_zero_of_ge_phys {s : Slab} {out : List Nat} (h : Inv s out)
    {p : Nat} (hp : s.phys_page_count ≤ p) : pageRefs out p = 0 := by
  by_contra hne
  have hpos : 0 < pageRefs out p := Nat.pos_of_ne_zero hne
  unfold pageRefs at hpos
  rw [List.countP_pos_iff] at hpos
  obtain ⟨off, hmem, hdiv⟩ := hpos
  have hlt := h.out_page_lt off hmem
  simp only [PAGE_SIZE, beq_iff_eq] at hdiv
  omega

theorem scanPages_expand_ne_none {s : Slab} {out : List Nat} (h : Inv s out)
    (hlt : s.phys_page_count < s.virt_page_count) (ph : Nat) (sh : Nat → Nat) :
    scanPages
      { s with
        phys_page_count := s.phys_page_count + 1
        page_lock_refs := Function.update s.page_lock_refs s.phys_page_count
          (s.page_lock_refs s.phys_page_count &&& (PAGE_LOCK_MASK - 1)) } ph sh ≠ none := by
  intro hnone
  rw [scanPages_eq_none_iff _ _ _ (by show 0 < s.phys_page_count + 1; omega)
    (by intro p sub; exact h.words_lt p sub)] at hnone
  have hcase := hnone s.phys_page_count (by show s.phys_page_count < s.phys_page_count + 1; omega)
  dsimp only at hcase
  obtain ⟨L, hL⟩ := h.refs s.phys_page_count
  have hRp : pageRefs out s.phys_page_count = 0 := pageRefs_eq_zero_of_ge_phys h (le_refl _)
  have hword : Function.update s.page_lock_refs s.phys_page_count
      (s.page_lock_refs s.phys_page_count &&& (PAGE_LOCK_MASK - 1)) s.phys_page_count = 0 := by
    rw [Function.update_same, hL, hRp]
    simp only [PAGE_LOCK_MASK]
    exact word_land_low L 0 (by omega)
  rcases hcase with hlock | hfull
  · rw [hword] at hlock
    simp [Nat.zero_testBit] at hlock
  · have hf := hfull 0 (by omega)
    have htb0 : (s.submap s.phys_page_count 0).testBit 0 = false := by
      cases htb : (s.submap s.phys_page_count 0).testBit 0 with
      | false => rfl
      | true =>
        exfalso
        have hiff := h.bits_iff s.phys_page_count 0 0 hlt (by omega) (by omega)
        rcases hiff.mp htb with hs | hm
        · have := h.spp_pos
          omega
        · have hltp := h.out_page_lt _ hm
          have hdv : (s.phys_page_count * 4096 + (0 * 16 + 0) * s.obj_size) / 4096 =
              s.phys_page_count := by
            simp [Nat.mul_div_cancel]
          omega
    rw [hf, testBit_FULL32] at htb0
    simp at htb0

theorem expand_refPart {s : Slab} {out : List Nat} (h : Inv s out) (p : Nat) :
    refPart ((adaptive_phys_page_expand s).page_lock_refs p) =
    refPart (s.page_lock_refs p) := by
  rcases expand_cases s with heq | ⟨_, _, heq⟩
  · rw [heq]
  · rw [heq]
    dsimp only
    by_cases hp : p = s.phys_page_count
    · obtain ⟨L, hL⟩ := h.refs s.phys_page_count
      have hR : pageRefs out s.phys_page_count < 2 ^ 63 := by
        have := h.refs_lt s.phys_page_count
        omega
      rw [hp, Function.update_same, hL]
      simp only [PAGE_LOCK_MASK]
      rw [word_land_low L _ hR, refPart_word L _ hR]
      unfold refPart
      exact Nat.mod_eq_of_lt hR
    · rw [Function.update_noteq hp]

theorem alloc_loop_consts :
    ∀ (fuel k : Nat) (s : Slab) (rounds : Nat → Nat × (Nat → Nat)),
      ((bmslab_alloc s rounds k fuel).2.virt_page_count = s.virt_page_count ∧
       (bmslab_alloc s rounds k fuel).2.obj_size = s.obj_size ∧
       (bmslab_alloc s rounds k fuel).2.slot_count_per_page = s.slot_count_per_page) := by
  intro fuel
  induction fuel with
  | zero =>
    intro k s rounds
    rw [bmslab_alloc_zero]
    exact ⟨rfl, rfl, rfl⟩
  | succ n ih =>
    intro k s rounds
    rw [bmslab_alloc_succ]
    cases hscan : scanPages s (rounds k).1 (rounds k).2 with
    | some pr =>
      obtain ⟨page, sub, bit⟩ := pr
      rw [allocRound_of_scan_some hscan]
      obtain ⟨h1, h2, h3, _⟩ := expand_consts
        { s with
          page_lock_refs := Function.update s.page_lock_refs page (s.page_lock_refs page + 1)
          submap := Function.update s.submap page
            (Function.update (s.submap page) sub (s.submap page sub ||| (1 <<< bit)))
          allocated_slot_count := s.allocated_slot_count + 1 }
      exact ⟨h1, h2, h3⟩
    | none =>
      rw [allocRound_of_scan_none hscan]
      dsimp only
      split
      · have hrec := ih (k + 1) (adaptive_phys_page_expand s) rounds
        obtain ⟨e1, e2, e3, _⟩ := expand_consts s
        rw [e1, e2, e3] at hrec
        exact hrec
      · exact ⟨rfl, rfl, rfl⟩

theorem alloc_null_state :
    ∀ (fuel k : Nat) (s : Slab) (out : List Nat) (rounds : Nat → Nat × (Nat → Nat)) (s' : Slab),
      Inv s out →
      bmslab_alloc s rounds k fuel = (some none, s') →
      s' = s ∧ s.phys_page_count = s.virt_page_count ∧ allFullOrLocked s := by
  intro fuel
  induction fuel with
  | zero =>
    intro k s out rounds s' _ halloc
    rw [bmslab_alloc_zero] at halloc
    exact absurd (congrArg Prod.fst halloc) (by simp)
  | succ n ih =>
    intro k s out rounds s' h halloc
    rw [bmslab_alloc_succ] at halloc
    cases hscan : scanPages s (rounds k).1 (rounds k).2 with
    | some pr =>
      obtain ⟨page, sub, bit⟩ := pr
      rw [allocRound_of_scan_some hscan] at halloc
      exact absurd (congrArg Prod.fst halloc) (by simp)
    | none =>
      rw [allocRound_of_scan_none hscan] at halloc
      dsimp only at halloc
      by_cases hlt : s.phys_page_count < s.virt_page_count
      · rw [if_pos hlt] at halloc
        have hrec := ih (k + 1) (adaptive_phys_page_expand s) out rounds s' (Inv_expand h) halloc
        exfalso
        rcases expand_cases s with heq | ⟨_, hlt2, heq⟩
        · rw [heq] at hrec
          have := hrec.2.1
          omega
        · -- effective expansion publishes a fresh page with a free slot, so the
          -- next scan cannot fail, contradicting allFullOrLocked
          have hscanne := scanPages_expand_ne_none h hlt (rounds (k + 1)).1 (rounds (k + 1)).2
          rw [← heq] at hscanne
          have hfl := hrec.2.2
          have hwords : ∀ p sub, (adaptive_phys_page_expand s).submap p sub < 2 ^ 32 :=
            (Inv_expand h).words_lt
          have hpos : 0 < (adaptive_phys_page_expand s).phys_page_count :=
            (Inv_expand h).phys_pos
          exact hscanne ((scanPages_eq_none_iff _ _ _ hpos hwords).mpr hfl)
      · rw [if_neg hlt] at halloc
        have hs' : s' = s := (congrArg Prod.snd halloc).symm
        have hphys : s.phys_page_count = s.virt_page_count := by
          have := h.phys_le
          omega
        refine ⟨hs', hphys, ?_⟩
        exact (scanPages_eq_none_iff s (rounds k).1 (rounds k).2
          (by have := h.phys_pos; omega) h.words_lt).mp hscan

theorem alloc_succeeds_none :
    ∀ (fuel k : Nat) (s : Slab) (out : List Nat) (rounds : Nat → Nat × (Nat → Nat)),
      Inv s out → 1 ≤ fuel →
      s.phys_page_count = s.virt_page_count → allFullOrLocked s →
      bmslab_alloc s rounds k fuel = (some none, s) := by
  intro fuel k s out rounds h hfuel hphys hfl
  obtain ⟨n, rfl⟩ : ∃ n, fuel = n + 1 := ⟨fuel - 1, by omega⟩
  rw [bmslab_alloc_succ]
  have hscan : scanPages s (rounds k).1 (rounds k).2 = none := by
    rw [scanPages_eq_none_iff s _ _ (by have := h.phys_pos; omega) h.words_lt]
    exact hfl
  rw [allocRound_of_scan_none hscan]
  dsimp only
  rw [if_neg (by omega)]

theorem alloc_some_inv :
    ∀ (fuel k : Nat) (s : Slab) (out : List Nat) (rounds : Nat → Nat × (Nat → Nat))
      (off : Nat) (s' : Slab),
      Inv s out →
      bmslab_alloc s rounds k fuel = (some (some off), s') →
      Inv s' (off :: out) ∧
      ∃ page sl, sl < s.slot_count_per_page ∧ off = page * 4096 + sl * s.obj_size ∧
        page < s.virt_page_count ∧
        refPart (s'.page_lock_refs page) = refPart (s.page_lock_refs page) + 1 ∧
        ∀ j, j ≠ page → refPart (s'.page_lock_refs j) = refPart (s.page_lock_refs j) := by
  intro fuel
  induction fuel with
  | zero =>
    intro k s out rounds off s' _ halloc
    rw [bmslab_alloc_zero] at halloc
    exact absurd (congrArg Prod.fst halloc) (by simp)
  | succ n ih =>
    intro k s out rounds off s' h halloc
    rw [bmslab_alloc_succ] at halloc
    cases hscan : scanPages s (rounds k).1 (rounds k).2 with
    | some pr =>
      obtain ⟨page, sub, bit⟩ := pr
      rw [allocRound_of_scan_some hscan] at halloc
      dsimp only at halloc
      have hoff : off = page * PAGE_SIZE + (bit * SUBMAP_COUNT + sub) * s.obj_size := by
        have := congrArg Prod.fst halloc
        simpa using this.symm
      have hs' := (congrArg Prod.snd halloc).symm
      dsimp only at hs'
      obtain ⟨hslt, hnmem, hpp, hinv1⟩ := Inv_allocStep h hscan
      have hoff4096 : off = page * 4096 + (bit * 16 + sub) * s.obj_size := by
        rw [hoff]
        simp [PAGE_SIZE, SUBMAP_COUNT]
      constructor
      · rw [hs', hoff4096]
        exact Inv_expand hinv1
      · refine ⟨page, bit * 16 + sub, hslt, hoff4096, lt_of_lt_of_le hpp h.phys_le, ?_, ?_⟩
        · rw [hs']
          rw [expand_refPart hinv1 page]
          dsimp only
          rw [Function.update_same]
          obtain ⟨L, hL, htb63, hrp⟩ := h.word_decomp page
          obtain ⟨hpp2, hlock, _, _, _⟩ := scanPages_some s _ _ page sub bit h.words_lt hscan
          have hLfalse : L = false := by
            rw [← htb63]
            exact hlock
          rw [hL, hLfalse]
          simp only [Bool.cond_false, Nat.zero_add]
          have hR : pageRefs out page < 2 ^ 63 - 1 := h.refs_lt page
          unfold refPart
          rw [Nat.mod_eq_of_lt (by omega), Nat.mod_eq_of_lt (by omega)]
        · intro j hj
          rw [hs']
          rw [expand_refPart hinv1 j]
          dsimp only
          rw [Function.update_noteq hj]
    | none =>
      rw [allocRound_of_scan_none hscan] at halloc
      dsimp only at halloc
      by_cases hlt : s.phys_page_count < s.virt_page_count
      · rw [if_pos hlt] at halloc
        have hrec := ih (k + 1) (adaptive_phys_page_expand s) out rounds off s'
          (Inv_expand h) halloc
        obtain ⟨e1, e2, e3, _⟩ := expand_consts s
        refine ⟨hrec.1, ?_⟩
        obtain ⟨page, sl, hsl, hoffe, hpv, hrefp, hrefo⟩ := hrec.2
        rw [e3] at hsl
        rw [e2] at hoffe
        rw [e1] at hpv
        refine ⟨page, sl, hsl, hoffe, hpv, ?_, ?_⟩
        · rw [hrefp, expand_refPart h page]
        · intro j hj
          rw [hrefo j hj, expand_refPart h j]
      · rw [if_neg hlt] at halloc
        exact absurd (congrArg Prod.fst halloc) (by simp)

/-! ### The invariant holds in every reachable configuration -/

set_option maxHeartbeats 1000000 in
theorem Inv_init {o m : Int} {s : Slab} (hlo : -(2 ^ 31) ≤ m) (hhi : m < 2 ^ 31)
    (h : bmslab_init o m true = some s) : Inv s [] := by
  unfold bmslab_init at h
  split at h
  · simp at h
  · split at h
    · simp at h
    · split at h
      · simp at h
      · rename_i hobj hm hok
        rw [Option.some.injEq] at h
        subst h
        rw [not_or] at hobj
        have hobj8 : (8 : Int) ≤ o := by omega
        have hobj4096 : o ≤ 4096 := by omega
        have hoN1 : 8 ≤ o.toNat := by omega
        have hoN2 : o.toNat ≤ 4096 := by omega
        have hm0 : m ≠ 0 := hm
        have hemod1 : (0 : Int) ≤ m % 2 ^ 32 := Int.emod_nonneg m (by norm_num)
        have hemod2 : m % 2 ^ 32 < 2 ^ 32 := Int.emod_lt_of_pos m (by norm_num)
        have hemod3 : m % 2 ^ 32 ≠ 0 := by omega
        have hv1 : 1 ≤ (m % (2 ^ 32 : Int)).toNat := by omega
        have hv2 : (m % (2 ^ 32 : Int)).toNat < 2 ^ 32 := by omega
        have hsppdef : PAGE_SIZE / o.toNat = 4096 / o.toNat := rfl
        have hspp512 : 4096 / o.toNat ≤ 512 := by
          calc 4096 / o.toNat ≤ 4096 / 8 := Nat.div_le_div_left hoN1 (by omega)
            _ = 512 := by norm_num
        refine ⟨hv2, hoN1, hoN2, rfl, le_refl 1, hv1, rfl, List.nodup_nil, ?_, ?_, ?_, ?_, ?_⟩
        · intro off hoff
          simp at hoff
        · intro p sub
          exact initPageWords_lt _ sub
        · intro p sub b hpv hsub hb
          show (initPageWords (PAGE_SIZE / o.toNat) sub).testBit b = true ↔ _
          rw [initPageWords_testBit _ sub b hsub hb]
          constructor
          · intro hd
            exact Or.inl (decide_eq_true_eq.mp hd)
          · rintro (hs | hmem)
            · exact decide_eq_true hs
            · simp at hmem
        · intro p
          exact ⟨false, rfl⟩
        · have hpp := pagePop_initPageWords (PAGE_SIZE / o.toNat) (by rw [hsppdef]; exact hspp512)
          show 0 + (m % (2 ^ 32 : Int)).toNat * (512 - PAGE_SIZE / o.toNat) =
            totalPopW (m % (2 ^ 32 : Int)).toNat (fun _ => initPageWords (PAGE_SIZE / o.toNat))
          generalize hS : PAGE_SIZE / o.toNat = S at hpp ⊢
          unfold totalPopW
          dsimp only
          rw [Finset.sum_const, Finset.card_range, smul_eq_mul, Nat.zero_add]
          generalize hP : pagePop (initPageWords S) = P at hpp ⊢
          have : 512 - S = P := by omega
          rw [this]

theorem Reach_Inv : ∀ {s : Slab} {out : List Nat}, Reach s out → Inv s out := by
  intro s out h
  induction h with
  | init o m s hlo hhi hinit => exact Inv_init hlo hhi hinit
  | alloc_some s out rounds fuel off s2 hr halloc ih =>
    exact (alloc_some_inv fuel 0 s out rounds off s2 ih halloc).1
  | alloc_none s out rounds fuel s2 hr halloc ih =>
    obtain ⟨hs2, _, _⟩ := alloc_null_state fuel 0 s out rounds s2 ih halloc
    rw [hs2]
    exact ih
  | free s out off hr hmem ih => exact Inv_free ih hmem

/-! ### Bridging the scan-failure condition to free real slots -/

theorem pageOffersFreeSlot_iff {s : Slab} {out : List Nat} (h : Inv s out) {p : Nat}
    (hp : p < s.virt_page_count) :
    pageOffersFreeSlot s p ↔
      ((s.page_lock_refs p).testBit 63 = false ∧
       ∃ sub, sub < 16 ∧ s.submap p sub ≠ FULL32) := by
  unfold pageOffersFreeSlot
  constructor
  · rintro ⟨hlk, slot, hslot, htb⟩
    have hslot512 : slot < 512 := lt_of_lt_of_le hslot h.spp_le
    refine ⟨hlk, slot % SUBMAP_COUNT, by simp only [SUBMAP_COUNT]; omega, ?_⟩
    exact ne_FULL32_of_clear _ (slot / SUBMAP_COUNT)
      (by simp only [SUBMAP_COUNT]; omega) htb
  · rintro ⟨hlk, sub, hsub, hne⟩
    refine ⟨hlk, ?_⟩
    have hw := h.words_lt p sub
    have hctz := ctzCompl32_spec _ hw hne
    have hiff := h.bits_iff p sub (ctzCompl32 (s.submap p sub)) hp hsub hctz.1
    have hrhs : ¬ (s.slot_count_per_page ≤ ctzCompl32 (s.submap p sub) * 16 + sub ∨
        (p * 4096 + (ctzCompl32 (s.submap p sub) * 16 + sub) * s.obj_size) ∈ out) := by
      intro hr
      have h2 := hiff.mpr hr
      rw [hctz.2] at h2
      exact Bool.false_ne_true h2
    rw [not_or] at hrhs
    refine ⟨ctzCompl32 (s.submap p sub) * 16 + sub, by omega, ?_⟩
    have h1 : (ctzCompl32 (s.submap p sub) * 16 + sub) % SUBMAP_COUNT = sub := by
      simp only [SUBMAP_COUNT]
      omega
    have h2 : (ctzCompl32 (s.submap p sub) * 16 + sub) / SUBMAP_COUNT =
        ctzCompl32 (s.submap p sub) := by
      simp only [SUBMAP_COUNT]
      omega
    rw [h1, h2]
    exact hctz.2

theorem allFullOrLocked_iff {s : Slab} {out : List Nat} (h : Inv s out) :
    allFullOrLocked s ↔ ∀ p, p < s.phys_page_count → ¬ pageOffersFreeSlot s p := by
  constructor
  · intro hA p hp hoff
    rcases (pageOffersFreeSlot_iff h (lt_of_lt_of_le hp h.phys_le)).mp hoff with
      ⟨hlk, sub, hsub, hne⟩
    rcases hA p hp with hlock | hfull
    · rw [hlk] at hlock
      exact Bool.false_ne_true hlock
    · exact hne (hfull sub hsub)
  · intro hB p hp
    have hnoff := hB p hp
    rw [pageOffersFreeSlot_iff h (lt_of_lt_of_le hp h.phys_le)] at hnoff
    push_neg at hnoff
    cases htb : (s.page_lock_refs p).testBit 63 with
    | true => exact Or.inl rfl
    | false =>
      right
      intro sub hsub
      have := hnoff htb sub hsub
      exact not_not.mp (by simpa using this)

/-! ### Concrete scans -/

theorem findSome?_const_or_none {α β : Type} (l : List α) (f : α → Option β) (v : β)
    (hall : ∀ a ∈ l, f a = none ∨ f a = some v) (hex : ∃ a ∈ l, f a = some v) :
    l.findSome? f = some v := by
  induction l with
  | nil => simp at hex
  | cons x xs ih =>
    rw [List.findSome?_cons]
    rcases hall x (List.mem_cons_self x xs) with hx | hx
    · rw [hx]
      apply ih (fun a ha => hall a (List.mem_cons_of_mem x ha))
      rcases hex with ⟨a, ha, hfa⟩
      rcases List.mem_cons.mp ha with heq | ha2
      · rw [heq, hx] at hfa
        simp at hfa
      · exact ⟨a, ha2, hfa⟩
    · rw [hx]

theorem scanSubmaps_single (w : Nat → Nat) (start : Nat)
    (h0 : w 0 = 4294967294) (hrest : ∀ j, 1 ≤ j → j < 16 → w j = FULL32) :
    scanSubmaps w start = some (0, 0) := by
  unfold scanSubmaps
  apply findSome?_const_or_none
  · intro j _
    by_cases hz : (start + j) % SUBMAP_COUNT = 0
    · right
      rw [hz, h0]
      have hne : (4294967294 : Nat) = FULL32 ↔ False := by
        norm_num [FULL32]
      rw [if_neg (by rw [hne]; exact id)]
      have hctz : ctzCompl32 4294967294 = 0 := by decide
      rw [hctz, if_neg (by omega)]
    · left
      have hlt : (start + j) % SUBMAP_COUNT < 16 := by
        have h2 := Nat.mod_lt (start + j) (show 0 < SUBMAP_COUNT by norm_num [SUBMAP_COUNT])
        simpa [SUBMAP_COUNT] using h2
      rw [hrest _ (by omega) hlt, if_pos rfl]
  · obtain ⟨i, hi, hmod⟩ := cyclic_hit start 0 SUBMAP_COUNT (by norm_num [SUBMAP_COUNT])
    refine ⟨i, List.mem_range.mpr (by simpa [SUBMAP_COUNT] using hi), ?_⟩
    rw [hmod, h0]
    have hne : ¬ ((4294967294 : Nat) = FULL32) := by norm_num [FULL32]
    rw [if_neg hne]
    have hctz : ctzCompl32 4294967294 = 0 := by decide
    rw [hctz, if_neg (by omega)]

theorem scanPages_single (s : Slab) (ph : Nat) (sh : Nat → Nat)
    (hphys : s.phys_page_count = 1) (hlock : s.page_lock_refs 0 = 0)
    (h00 : s.submap 0 0 = 4294967294)
    (hrest : ∀ j, 1 ≤ j → j < 16 → s.submap 0 j = FULL32) :
    scanPages s ph sh = some (0, 0, 0) := by
  unfold scanPages
  rw [hphys]
  rw [show List.range 1 = [0] from rfl, List.findSome?_cons]
  have hmod : (ph + 0) % 1 = 0 := Nat.mod_one _
  rw [hmod, hlock]
  rw [show (0 : Nat).testBit 63 = false from Nat.zero_testBit 63]
  have hscan := scanSubmaps_single (s.submap 0) (sh 0) h00 hrest
  simp [hscan]

theorem expand_phys_cases (s : Slab) :
    (adaptive_phys_page_expand s).phys_page_count = s.phys_page_count ∨
    ((adaptive_phys_page_expand s).phys_page_count = s.phys_page_count + 1 ∧
     s.phys_page_count < s.virt_page_count) := by
  rcases expand_cases s with heq | ⟨_, hlt, heq⟩
  · rw [heq]
    left
    rfl
  · rw [heq]
    right
    exact ⟨rfl, hlt⟩

theorem shrink_phys_cases (s : Slab) :
    (adaptive_phys_page_shrink s).phys_page_count = s.phys_page_count ∨
    ((adaptive_phys_page_shrink s).phys_page_count = s.phys_page_count - 1 ∧
     2 ≤ s.phys_page_count) := by
  unfold adaptive_phys_page_shrink
  dsimp only
  split
  · left
    rfl
  · split
    · left
      rfl
    · rename_i hthr hlast
      split
      · right
        refine ⟨rfl, ?_⟩
        omega
      · left
        rfl

/-! ### The machine-exact operations: equations and agreement with the
unwrapped layer -/

theorem bmslab_alloc_machine_zero (s : Slab) (rounds : Nat → Nat × (Nat → Nat)) (k : Nat) :
    bmslab_alloc_machine s rounds k 0 = (none, s) := rfl

theorem bmslab_alloc_machine_succ (s : Slab) (rounds : Nat → Nat × (Nat → Nat)) (k fuel : Nat) :
    bmslab_alloc_machine s rounds k (fuel + 1) =
      match allocRound_machine s (rounds k).1 (rounds k).2 with
      | (some off, s') => (some (some off), s')
      | (none, s') =>
        if s'.phys_page_count < s'.virt_page_count then
          bmslab_alloc_machine (adaptive_phys_page_expand_machine s') rounds (k + 1) fuel
        else (some none, s') := rfl

theorem allocRound_machine_of_scan_none {s : Slab} {ph : Nat} {sh : Nat → Nat}
    (hscan : scanPages s ph sh = none) : allocRound_machine s ph sh = (none, s) := by
  unfold allocRound_machine
  rw [hscan]

theorem allocRound_machine_of_scan_some {s : Slab} {ph : Nat} {sh : Nat → Nat}
    {page sub bit : Nat} (hscan : scanPages s ph sh = some (page, sub, bit)) :
    allocRound_machine s ph sh =
      (some (obj_addr_machine page (bit * SUBMAP_COUNT + sub) s.obj_size),
        adaptive_phys_page_expand_machine
          { s with
            page_lock_refs :=
              Function.update s.page_lock_refs page ((s.page_lock_refs page + 1) % 2 ^ 64)
            submap :=
              Function.update s.submap page
                (Function.update (s.submap page) sub (s.submap page sub ||| (1 <<< bit)))
            allocated_slot_count := (s.allocated_slot_count + 1) % 2 ^ 32 }) := by
  unfold allocRound_machine
  rw [hscan]

theorem obj_addr_machine_small (page slot obj : Nat)
    (h : page * 4096 + slot * obj < 2 ^ 31) :
    obj_addr_machine page slot obj = page * 4096 + slot * obj := by
  unfold obj_addr_machine page_start_machine
  have h1 : (page * 4096) % 2 ^ 32 = page * 4096 := Nat.mod_eq_of_lt (by omega)
  dsimp only
  rw [h1, if_pos (by omega : page * 4096 < 2 ^ 31)]
  exact Nat.mod_eq_of_lt (by omega)

theorem get_max32_eq (s : Slab)
    (h : s.phys_page_count * s.slot_count_per_page < 2 ^ 32) :
    get_max_slot_count32 s = get_max_slot_count s := by
  unfold get_max_slot_count32 get_max_slot_count
  exact Nat.mod_eq_of_lt h

theorem expand_machine_eq (s : Slab)
    (h : s.phys_page_count * s.slot_count_per_page < 2 ^ 32) :
    adaptive_phys_page_expand_machine s = adaptive_phys_page_expand s := by
  unfold adaptive_phys_page_expand_machine adaptive_phys_page_expand
  rw [get_max32_eq s h]

theorem shrink_machine_eq (s : Slab)
    (h : s.phys_page_count * s.slot_count_per_page < 2 ^ 32) :
    adaptive_phys_page_shrink_machine s = adaptive_phys_page_shrink s := by
  unfold adaptive_phys_page_shrink_machine adaptive_phys_page_shrink
  rw [get_max32_eq s h]

theorem Inv.cap_small {s : Slab} {out : List Nat} (h : Inv s out)
    (hvirt : s.virt_page_count ≤ 2 ^ 19) :
    s.phys_page_count * s.slot_count_per_page < 2 ^ 32 := by
  have h1 := h.phys_le
  have h2 := h.spp_le
  calc s.phys_page_count * s.slot_count_per_page
      ≤ (2 ^ 19) * 512 := Nat.mul_le_mul (le_trans h1 hvirt) h2
    _ < 2 ^ 32 := by norm_num

/-- On a slab of at most `2 ^ 19` pages, the machine-exact deallocator of an
outstanding offset coincides with the unwrapped one: the page index is below
`2 ^ 19` so neither `diff >> 12` nor `page_idx << 12` can wrap, the recovered
slot index is exact and in range (the assert passes), and the counter and the
lock/ref word are far from their wrap-around points. -/
theorem free_machine_eq_small {s : Slab} {out : List Nat} (h : Inv s out)
    (hvirt : s.virt_page_count ≤ 2 ^ 19) {off : Nat} (hmem : off ∈ out) :
    bmslab_free_machine s off = bmslab_free s off := by
  obtain ⟨p0, sl0, hp0, hsl0, hoff⟩ := h.out_form off hmem
  have hobj := h.obj_pos
  have hpv : p0 < s.virt_page_count := lt_of_lt_of_le hp0 h.phys_le
  have hp019 : p0 < 2 ^ 19 := lt_of_lt_of_le hpv hvirt
  have hslobj : sl0 * s.obj_size + s.obj_size ≤ 4096 := h.slot_off_lt sl0 hsl0
  have hdivm := h.off_div p0 sl0 hsl0
  have hdiv : off / PAGE_SIZE = p0 := by
    rw [hoff]
    simpa [PAGE_SIZE] using hdivm.1
  have hpidx : (off / PAGE_SIZE) % 2 ^ 32 = p0 := by
    rw [hdiv]
    exact Nat.mod_eq_of_lt (by omega)
  have hpb : (p0 * 4096) % 2 ^ 32 = p0 * 4096 := Nat.mod_eq_of_lt (by omega)
  have hoffset : (2 ^ 64 + off - (p0 * 4096) % 2 ^ 32) % 2 ^ 64 = sl0 * s.obj_size := by
    rw [hpb, hoff]
    have heq : 2 ^ 64 + (p0 * 4096 + sl0 * s.obj_size) - p0 * 4096 =
        2 ^ 64 + sl0 * s.obj_size := by omega
    rw [heq, Nat.add_mod_left]
    exact Nat.mod_eq_of_lt (by omega)
  have hslot : sl0 * s.obj_size / s.obj_size = sl0 := Nat.mul_div_cancel sl0 hobj
  have hsl512 : sl0 < 512 := lt_of_lt_of_le hsl0 h.spp_le
  have hsl32 : sl0 % 2 ^ 32 = sl0 := Nat.mod_eq_of_lt (by omega)
  have hslotI : off % PAGE_SIZE / s.obj_size = sl0 := by
    have hmodd : off % PAGE_SIZE = sl0 * s.obj_size := by
      rw [hoff]
      simpa [PAGE_SIZE] using hdivm.2
    rw [hmodd, hslot]
  have hcnt : (s.allocated_slot_count + (2 ^ 32 - 1)) % 2 ^ 32 =
      s.allocated_slot_count - 1 := by
    have h1 : s.allocated_slot_count = out.length := h.alloc_eq
    have h2 : 1 ≤ out.length := List.length_pos_of_mem hmem
    have h3 : out.length ≤ s.virt_page_count * 4096 := h.len_le
    have h4 : s.virt_page_count * 4096 ≤ 2 ^ 19 * 4096 :=
      Nat.mul_le_mul_right _ hvirt
    omega
  have hrefs : (s.page_lock_refs p0 + (2 ^ 64 - 1)) % 2 ^ 64 =
      s.page_lock_refs p0 - 1 := by
    obtain ⟨L, hL⟩ := h.refs p0
    have hR := h.refs_lt p0
    have hcnt0 : 0 < pageRefs out p0 := by
      unfold pageRefs
      rw [List.countP_pos_iff]
      refine ⟨off, hmem, ?_⟩
      simpa [PAGE_SIZE] using hdiv
    rw [hL]
    cases L
    · simp only [Bool.cond_false, Nat.zero_add]
      omega
    · simp only [Bool.cond_true]
      omega
  unfold bmslab_free_machine bmslab_free
  dsimp only
  rw [hpidx, hdiv, hoffset, hslot, hsl32, hslotI]
  by_cases hv : s.virt_page_count ≤ p0
  · omega
  · rw [if_neg hv, if_neg hv, if_neg (Nat.not_le.mpr hsl0), hcnt, hrefs]
    exact shrink_machine_eq _ (h.cap_small hvirt)

/-- On a slab of at most `2 ^ 19` pages, the machine-exact allocator
coincides with the unwrapped one: every page index is below `2 ^ 19`, so the
returned pointer offset does not wrap, and the counter and lock/ref
increments stay below their moduli. -/
theorem alloc_machine_eq_small :
    ∀ (fuel k : Nat) (s : Slab) (out : List Nat) (rounds : Nat → Nat × (Nat → Nat)),
      Inv s out → s.virt_page_count ≤ 2 ^ 19 →
      bmslab_alloc_machine s rounds k fuel = bmslab_alloc s rounds k fuel := by
  intro fuel
  induction fuel with
  | zero => intro k s out rounds _ _; rfl
  | succ n ih =>
    intro k s out rounds h hvirt
    rw [bmslab_alloc_machine_succ, bmslab_alloc_succ]
    cases hscan : scanPages s (rounds k).1 (rounds k).2 with
    | some pr =>
      obtain ⟨page, sub, bit⟩ := pr
      rw [allocRound_machine_of_scan_some hscan, allocRound_of_scan_some hscan]
      dsimp only
      obtain ⟨hslt, hnmem, hpp, hinv1⟩ := Inv_allocStep h hscan
      have hoffeq : obj_addr_machine page (bit * SUBMAP_COUNT + sub) s.obj_size =
          page * PAGE_SIZE + (bit * SUBMAP_COUNT + sub) * s.obj_size := by
        have hp19 : page < 2 ^ 19 := lt_of_lt_of_le (lt_of_lt_of_le hpp h.phys_le) hvirt
        have hX : (bit * SUBMAP_COUNT + sub) * s.obj_size + s.obj_size ≤ 4096 := by
          have := h.slot_off_lt (bit * 16 + sub) hslt
          simpa [SUBMAP_COUNT] using this
        have hobj := h.obj_pos
        have := obj_addr_machine_small page (bit * SUBMAP_COUNT + sub) s.obj_size
          (by simp only [SUBMAP_COUNT] at hX ⊢; omega)
        rw [this]
        simp [PAGE_SIZE]
      have hcnt : (s.allocated_slot_count + 1) % 2 ^ 32 = s.allocated_slot_count + 1 := by
        have h1 : s.allocated_slot_count = out.length := h.alloc_eq
        have h3 : out.length ≤ s.virt_page_count * 4096 := h.len_le
        have h4 : s.virt_page_count * 4096 ≤ 2 ^ 19 * 4096 :=
          Nat.mul_le_mul_right _ hvirt
        exact Nat.mod_eq_of_lt (by omega)
      have hrefs : (s.page_lock_refs page + 1) % 2 ^ 64 = s.page_lock_refs page + 1 := by
        obtain ⟨L, hL⟩ := h.refs page
        have hR := h.refs_lt page
        rw [hL]
        cases L
        · simp only [Bool.cond_false, Nat.zero_add]
          exact Nat.mod_eq_of_lt (by omega)
        · simp only [Bool.cond_true]
          exact Nat.mod_eq_of_lt (by omega)
      rw [hoffeq, hcnt, hrefs, expand_machine_eq _ (hinv1.cap_small hvirt)]
    | none =>
      rw [allocRound_machine_of_scan_none hscan, allocRound_of_scan_none hscan]
      dsimp only
      split
      · rw [expand_machine_eq _ (h.cap_small hvirt)]
        exact ih (k + 1) (adaptive_phys_page_expand s) out rounds (Inv_expand h)
          (by rw [(expand_consts s).1]; exact hvirt)
      · rfl

/-! ### Scans that hit their starting position, and concrete bitmap values -/

theorem initPageWords_high (spp sub : Nat) (h : 16 ≤ sub) :
    initPageWords spp sub = FULL32 := by
  induction spp with
  | zero => rfl
  | succ n ih =>
    rw [initPageWords_rec, Function.update_noteq (by simp only [SUBMAP_COUNT]; omega)]
    exact ih

theorem initPageWords_one_ne (sub : Nat) (h : sub ≠ 0) : initPageWords 1 sub = FULL32 := by
  by_cases hhi : 16 ≤ sub
  · exact initPageWords_high 1 sub hhi
  · apply eq_FULL32 _ (initPageWords_lt 1 sub)
    intro b hb
    rw [initPageWords_testBit 1 sub b (by omega) hb]
    exact decide_eq_true (by omega)

theorem scanSubmaps_hit_start (w : Nat → Nat) (start : Nat) (hs : start < 16)
    (hne : w start ≠ FULL32) (hctz : ctzCompl32 (w start) < 32) :
    scanSubmaps w start = some (start, ctzCompl32 (w start)) := by
  unfold scanSubmaps
  rw [show List.range SUBMAP_COUNT =
      0 :: [1, 2, 3, 4, 5, 6, 7, 8, 9, 10, 11, 12, 13, 14, 15] from rfl,
    List.findSome?_cons]
  have h0 : (start + 0) % SUBMAP_COUNT = start := by
    simp only [Nat.add_zero, SUBMAP_COUNT]
    omega
  rw [h0, if_neg hne, if_neg (Nat.not_le.mpr hctz)]

theorem scanPages_hit_start (s : Slab) (ph : Nat) (sh : Nat → Nat) (sub bit : Nat)
    (hph : ph < s.phys_page_count)
    (hlock : (s.page_lock_refs ph).testBit 63 = false)
    (hsub : scanSubmaps (s.submap ph) (sh 0) = some (sub, bit)) :
    scanPages s ph sh = some (ph, sub, bit) := by
  unfold scanPages
  obtain ⟨n, hn⟩ : ∃ n, s.phys_page_count = n + 1 := ⟨s.phys_page_count - 1, by omega⟩
  rw [hn, List.range_succ_eq_map, List.findSome?_cons]
  have h0 : (ph + 0) % (n + 1) = ph := by
    rw [Nat.add_zero]
    exact Nat.mod_eq_of_lt (by omega)
  rw [h0, hlock, if_neg (by simp), hsub]

/-! ### The obj_size = 4096 chain: closed form -/

theorem chain1_step (virt k : Nat) (hk : k < virt) (hvirt : virt < 2 ^ 32) :
    bmslab_alloc_machine (bigSlab1 virt k) (chainOracle1 k) 0 1 =
      (some (some (obj_addr_machine k 0 4096)), bigSlab1 virt (k + 1)) := by
  have hphys : (bigSlab1 virt k).phys_page_count = k + 1 := by
    show min (k + 1) virt = k + 1
    omega
  have hsubk : (bigSlab1 virt k).submap k = fun sub => initPageWords 1 sub := by
    funext sub
    show (if k < k then FULL32 else initPageWords 1 sub) = _
    rw [if_neg (lt_irrefl k)]
  have hlockk : (bigSlab1 virt k).page_lock_refs k = 0 := by
    show (if k < k then 1 else 0) = 0
    rw [if_neg (lt_irrefl k)]
  have hscanS : scanSubmaps ((bigSlab1 virt k).submap k) ((chainOracle1 k 0).2 0) =
      some (0, 0) := by
    rw [hsubk]
    show scanSubmaps (fun sub => initPageWords 1 sub) 0 = some (0, 0)
    have h1 : scanSubmaps (fun sub => initPageWords 1 sub) 0 =
        some (0, ctzCompl32 (initPageWords 1 0)) := by
      apply scanSubmaps_hit_start
      · omega
      · show initPageWords 1 0 ≠ FULL32
        decide
      · show ctzCompl32 (initPageWords 1 0) < 32
        decide
    rw [h1]
    have h2 : ctzCompl32 (initPageWords 1 0) = 0 := by decide
    rw [h2]
  have hscan : scanPages (bigSlab1 virt k) (chainOracle1 k 0).1 (chainOracle1 k 0).2 =
      some (k, 0, 0) := by
    show scanPages (bigSlab1 virt k) k (chainOracle1 k 0).2 = some (k, 0, 0)
    apply scanPages_hit_start
    · rw [hphys]
      omega
    · rw [hlockk]
      exact Nat.zero_testBit 63
    · exact hscanS
  rw [bmslab_alloc_machine_succ, allocRound_machine_of_scan_some hscan]
  have hsubv : (bigSlab1 virt k).submap k 0 ||| (1 <<< 0) = FULL32 := by
    rw [hsubk]
    show initPageWords 1 0 ||| (1 <<< 0) = FULL32
    decide
  have hrefv : ((bigSlab1 virt k).page_lock_refs k + 1) % 2 ^ 64 = 1 := by
    rw [hlockk]
    decide
  have hcntv : ((bigSlab1 virt k).allocated_slot_count + 1) % 2 ^ 32 = k + 1 := by
    show (k % 2 ^ 32 + 1) % 2 ^ 32 = k + 1
    omega
  rw [Prod.mk.injEq]
  constructor
  · show some (some (obj_addr_machine k (0 * SUBMAP_COUNT + 0) (bigSlab1 virt k).obj_size)) = _
    have h3 : 0 * SUBMAP_COUNT + 0 = 0 := by
      simp only [SUBMAP_COUNT]
    rw [h3]
    rfl
  · rw [hsubv, hrefv, hcntv]
    unfold bigSlab1
    dsimp only
    unfold adaptive_phys_page_expand_machine get_max_slot_count32
    dsimp only
    have hmin : min (k + 1) virt = k + 1 := by omega
    rw [hmin]
    rw [if_neg (by omega : ¬ (k + 1 < (k + 1) * 1 % 2 ^ 32 / 2))]
    have hupd_out : Function.update (fun p => if p < k then 1 else 0) k 1 (k + 1) = 0 := by
      rw [Function.update_noteq (by omega)]
      rw [if_neg (by omega)]
    by_cases hkv : k + 1 < virt
    · rw [if_pos hkv]
      rw [Slab.mk.injEq]
      refine ⟨rfl, rfl, rfl, by omega, by omega, ?_, ?_⟩
      · rw [hupd_out, Nat.zero_and]
        funext p
        rw [Function.update_apply, Function.update_apply]
        by_cases hp1 : p = k + 1
        · rw [if_pos hp1, hp1, if_neg (by omega : ¬ (k + 1 < k + 1))]
        · rw [if_neg hp1]
          by_cases hp2 : p = k
          · rw [if_pos hp2, if_pos (by omega)]
          · rw [if_neg hp2]
            by_cases hp3 : p < k
            · rw [if_pos hp3, if_pos (by omega)]
            · rw [if_neg hp3, if_neg (by omega)]
      · funext p sub
        rw [Function.update_apply]
        by_cases hp : p = k
        · rw [if_pos hp, hp]
          rw [Function.update_apply]
          by_cases hq : sub = 0
          · rw [if_pos hq, if_pos (by omega)]
          · rw [if_neg hq, if_neg (lt_irrefl k), if_pos (by omega)]
            exact initPageWords_one_ne sub hq
        · rw [if_neg hp]
          by_cases hp3 : p < k
          · rw [if_pos hp3, if_pos (by omega)]
          · rw [if_neg hp3, if_neg (by omega)]
    · rw [if_neg hkv]
      rw [Slab.mk.injEq]
      refine ⟨rfl, rfl, rfl, by omega, by omega, ?_, ?_⟩
      · funext p
        rw [Function.update_apply]
        by_cases hp2 : p = k
        · rw [if_pos hp2, if_pos (by omega)]
        · rw [if_neg hp2]
          by_cases hp3 : p < k
          · rw [if_pos hp3, if_pos (by omega)]
          · rw [if_neg hp3, if_neg (by omega)]
      · funext p sub
        rw [Function.update_apply]
        by_cases hp : p = k
        · rw [if_pos hp, hp]
          rw [Function.update_apply]
          by_cases hq : sub = 0
          · rw [if_pos hq, if_pos (by omega)]
          · rw [if_neg hq, if_neg (lt_irrefl k), if_pos (by omega)]
            exact initPageWords_one_ne sub hq
        · rw [if_neg hp]
          by_cases hp3 : p < k
          · rw [if_pos hp3, if_pos (by omega)]
          · rw [if_neg hp3, if_neg (by omega)]

theorem allocChain1_eq (virt : Nat) (h1 : 1 ≤ virt) (hvirt : virt < 2 ^ 32) :
    ∀ k, k ≤ virt → allocChain1 virt k = bigSlab1 virt k := by
  intro k
  induction k with
  | zero =>
    intro _
    show initialSlab 4096 virt = bigSlab1 virt 0
    unfold initialSlab bigSlab1
    rw [Slab.mk.injEq]
    refine ⟨rfl, rfl, rfl, by omega, by omega, ?_, ?_⟩
    · funext p
      rw [if_neg (by omega)]
    · funext p sub
      rw [if_neg (by omega)]
      rfl
  | succ n ih =>
    intro hn1
    show (bmslab_alloc_machine (allocChain1 virt n) (chainOracle1 n) 0 1).2 = _
    rw [ih (by omega), chain1_step virt n (by omega) hvirt]

/-! ### The obj_size = 2048 chain: closed form -/

/-- C5: in every state reachable from create by any sequence of
`bmslab_alloc` calls and `bmslab_free` calls on previously returned
outstanding pointers, every sentinel bit — a bit at sub-index `sub` and
bit-index `b` with slot index `b * 16 + sub ≥ slot_count_per_page` — is 1 on
every page (so no operation ever clears a sentinel bit). -/
theorem C5_sentinel_bits (s : Slab) (out : List Nat) (h : Reach s out) :
    ∀ p sub b, p < s.virt_page_count → sub < 16 → b < 32 →
      s.slot_count_per_page ≤ b * 16 + sub →
      (s.submap p sub).testBit b = true := by
  intro p sub b hp hsub hb hsent
  exact ((Reach_Inv h).bits_iff p sub b hp hsub hb).mpr (Or.inl hsent)

/-- Witness for C5: the bit of slot index 1 on page 0 of a fresh slab with a
single real slot per page is a sentinel and is set. -/
theorem C5_witness : ((initialSlab 4096 1).submap 0 1).testBit 0 = true :=
  C5_sentinel_bits (initialSlab 4096 1) []
    (Reach.init 4096 1 (initialSlab 4096 1) (by norm_num) (by norm_num) rfl)
    0 1 0 (by decide) (by decide) (by decide) (by decide)

/-- C6: after create, `1 ≤ phys_page_count ≤ virt_page_count`, and the bound
is preserved by every operation; adaptive expansion increments
`phys_page_count` only when it is strictly below `virt_page_count`, and
adaptive shrinkage never decrements it below 1 (it only decrements from a
count of at least 2, so the first page is never reclaimed). -/
theorem C6_phys_bounds (s : Slab) (out : List Nat) (h : Reach s out) :
    (1 ≤ s.phys_page_count ∧ s.phys_page_count ≤ s.virt_page_count) ∧
    ((adaptive_phys_page_expand s).phys_page_count = s.phys_page_count ∨
     ((adaptive_phys_page_expand s).phys_page_count = s.phys_page_count + 1 ∧
      s.phys_page_count < s.virt_page_count)) ∧
    ((adaptive_phys_page_shrink s).phys_page_count = s.phys_page_count ∨
     ((adaptive_phys_page_shrink s).phys_page_count = s.phys_page_count - 1 ∧
      2 ≤ s.phys_page_count)) := by
  have hinv := Reach_Inv h
  exact ⟨⟨hinv.phys_pos, hinv.phys_le⟩, expand_phys_cases s, shrink_phys_cases s⟩

/-- Witness for C6 at a freshly created slab. -/
theorem C6_witness :
    (1 ≤ (initialSlab 4096 1).phys_page_count ∧
     (initialSlab 4096 1).phys_page_count ≤ (initialSlab 4096 1).virt_page_count) ∧
    ((adaptive_phys_page_expand (initialSlab 4096 1)).phys_page_count =
       (initialSlab 4096 1).phys_page_count ∨
     ((adaptive_phys_page_expand (initialSlab 4096 1)).phys_page_count =
        (initialSlab 4096 1).phys_page_count + 1 ∧
      (initialSlab 4096 1).phys_page_count < (initialSlab 4096 1).virt_page_count)) ∧
    ((adaptive_phys_page_shrink (initialSlab 4096 1)).phys_page_count =
       (initialSlab 4096 1).phys_page_count ∨
     ((adaptive_phys_page_shrink (initialSlab 4096 1)).phys_page_count =
        (initialSlab 4096 1).phys_page_count - 1 ∧
      2 ≤ (initialSlab 4096 1).phys_page_count)) :=
  C6_phys_bounds (initialSlab 4096 1) []
    (Reach.init 4096 1 (initialSlab 4096 1) (by norm_num) (by norm_num) rfl)

/-- C7 (code bug): `bmslab_free` of a foreign pointer can corrupt the slab
instead of being a no-op.  The source truncates `diff >> PAGE_SHIFT` into
the `uint32_t` `page_idx` and only then compares it against
`virt_page_count`, so a pointer far outside the reserved range — here
`ptr = base - 2 ^ 44 + 8`, below `base` — gives
`diff >> 12 = 2 ^ 52 - 2 ^ 32`, truncated to `page_idx = 0`.  That passes
the range check and the slot assert, and the call then wraps the fresh
slab's `allocated_slot_count` from `0` to `2 ^ 32 - 1` and
`page_lock_refs[0]` from `0` to `2 ^ 64 - 1` (setting the drain-lock bit of
a live page). -/
theorem C7_truncation_bug :
    2 ^ 44 + 8 < 2 ^ 45 ∧
    (initialSlab 4096 1).allocated_slot_count = 0 ∧
    (initialSlab 4096 1).page_lock_refs 0 = 0 ∧
    (bmslab_free_ptr_machine (initialSlab 4096 1) (2 ^ 45)
        (2 ^ 44 + 8)).allocated_slot_count = 2 ^ 32 - 1 ∧
    (bmslab_free_ptr_machine (initialSlab 4096 1) (2 ^ 45)
        (2 ^ 44 + 8)).page_lock_refs 0 = 2 ^ 64 - 1 := by
  refine ⟨by norm_num, rfl, rfl, by decide, by decide⟩

/-- C9 counterexample: `bmslab_init` does not return null for every
`max_page_count < 1`.  The C source checks only `max_page_count == 0`, so the
negative argument `-1` passes validation and (when the memory acquisitions
succeed) a handle is returned. -/
theorem C9_counterexample :
    ((-1 : Int) < 1) ∧ (bmslab_init 8 (-1) true).isSome = true := by
  exact ⟨by norm_num, rfl⟩

/-- C9 (amended): `bmslab_init` returns null exactly when `obj_size < 8`,
`obj_size > 4096`, `max_page_count = 0`, or memory acquisition fails; a
negative `max_page_count` is not rejected (it is converted to its unsigned
32-bit value). -/
theorem C9_init_none_iff (o m : Int) (ok : Bool) :
    bmslab_init o m ok = none ↔ (o < 8 ∨ 4096 < o ∨ m = 0 ∨ ok = false) := by
  unfold bmslab_init
  by_cases hval : o < 8 ∨ 4096 < o
  · rw [if_pos hval]
    simp only [true_iff]
    rcases hval with hv | hv
    · exact Or.inl hv
    · exact Or.inr (Or.inl hv)
  · rw [if_neg hval]
    by_cases hm : m = 0
    · rw [if_pos hm]
      simp [hm]
    · rw [if_neg hm]
      by_cases hok : ok = false
      · rw [if_pos hok]
        simp [hok]
      · rw [if_neg hok]
        rw [not_or] at hval
        constructor
        · intro hcon
          simp at hcon
        · rintro (hc | hc | hc | hc)
          · omega
          · omega
          · exact absurd hc hm
          · exact absurd hc hok

/-- C10 counterexample: immediately after a successful create with
`max_pages = 2`, the not-yet-published page 1 does *not* have its drain-lock
bit set: `page_lock_refs` is zero-initialised by `calloc`. -/
theorem C10_counterexample :
    bmslab_init 8 2 true = some (initialSlab 8 2) ∧
    ((initialSlab 8 2).page_lock_refs 1).testBit 63 = false := by
  exact ⟨rfl, by decide⟩

/-- C10 (amended): immediately after a successful create, every page's
lock/ref word is zero — the drain-lock bit is clear on all pages, including
the not-yet-published ones; a page's drain bit is only ever set later by the
shrink protocol, and expansion's `unlock_page` on a freshly created page is a
no-op. -/
theorem C10_fresh_pages_zero (o m : Int) (ok : Bool) (s : Slab)
    (h : bmslab_init o m ok = some s) : ∀ i, s.page_lock_refs i = 0 := by
  unfold bmslab_init at h
  split at h
  · simp at h
  · split at h
    · simp at h
    · split at h
      · simp at h
      · rw [Option.some.injEq] at h
        subst h
        intro i
        rfl

/-- Witness for C10 (amended) at `bmslab_init 8 2`. -/
theorem C10_witness : (initialSlab 8 2).page_lock_refs 1 = 0 :=
  C10_fresh_pages_zero 8 2 true (initialSlab 8 2) rfl 1

/-- C1: for a slab created with valid arguments and any sequence of
`bmslab_alloc` and `bmslab_free` calls (frees of outstanding pointers),
`bmslab_alloc` returns null if and only if no allocation is possible: every
live page (index `< phys_page_count`) offers no free real slot to the
allocator (it is drain-locked or all of its real slots are used), and
`phys_page_count = virt_page_count`, so no further expansion is possible. -/
theorem C1_alloc_null_iff (s : Slab) (out : List Nat) (h : Reach s out)
    (rounds : Nat → Nat × (Nat → Nat)) (fuel : Nat) (hfuel : 1 ≤ fuel) :
    (bmslab_alloc s rounds 0 fuel).1 = some none ↔
      ((∀ p, p < s.phys_page_count → ¬ pageOffersFreeSlot s p) ∧
       s.phys_page_count = s.virt_page_count) := by
  have hinv := Reach_Inv h
  constructor
  · intro hnull
    have heq : bmslab_alloc s rounds 0 fuel =
        (some none, (bmslab_alloc s rounds 0 fuel).2) := by
      rw [← hnull]
    obtain ⟨_, hphys, hfl⟩ := alloc_null_state fuel 0 s out rounds _ hinv heq
    exact ⟨(allFullOrLocked_iff hinv).mp hfl, hphys⟩
  · rintro ⟨hoffers, hphys⟩
    have hfl := (allFullOrLocked_iff hinv).mpr hoffers
    rw [alloc_succeeds_none fuel 0 s out rounds hinv hfuel hphys hfl]

/-- Witness for C1: on a freshly created one-page slab, page 0 offers a free
slot, so by the iff the allocator does not return null. -/
theorem C1_witness :
    ¬ ((bmslab_alloc (initialSlab 4096 1) zeroRounds 0 1).1 = some none) := by
  intro hnull
  have hiff := C1_alloc_null_iff (initialSlab 4096 1) []
    (Reach.init 4096 1 (initialSlab 4096 1) (by norm_num) (by norm_num) rfl)
    zeroRounds 1 (by norm_num)
  have hcon := (hiff.mp hnull).1 0 (by decide)
  apply hcon
  refine ⟨by decide, 0, by decide, by decide⟩

/-- C2 counterexample: on large slabs the program returns pointers outside
the reserved range.  Create a slab with `obj_size = 4096` and
`max_page_count = 2 ^ 19 + 1 = 524289`, and run `2 ^ 19 + 1` machine
allocations, the `k`-th directed at page `k`; every call completes and
returns a pointer.  The allocation on page `2 ^ 19` computes `page_start`
with the 32-bit `int` shift `2 ^ 19 << 12`, which overflows to `-2 ^ 31`:
the returned pointer is `base + 2 ^ 64 - 2 ^ 31` (i.e. `base - 2 ^ 31`),
far outside `[base, base + virt_page_count * 4096)` where
`virt_page_count * 4096 = 524289 * 4096`. -/
theorem C2_counterexample :
    bmslab_init 4096 524289 true = some (initialSlab 4096 524289) ∧
    (∀ k, k < 524289 →
      (bmslab_alloc_machine (allocChain1 524289 k) (chainOracle1 k) 0 1).1 =
        some (some (obj_addr_machine k 0 4096))) ∧
    obj_addr_machine 524288 0 4096 = 2 ^ 64 - 2 ^ 31 ∧
    524289 * 4096 ≤ obj_addr_machine 524288 0 4096 := by
  refine ⟨rfl, ?_, by decide, by decide⟩
  intro k hk
  rw [allocChain1_eq 524289 (by norm_num) (by norm_num) k (by omega),
    chain1_step 524289 k (by omega) (by norm_num)]

/-- C2 (amended): on slabs of at most `2 ^ 19` pages, every non-null pointer
`base + off` returned by the machine-exact allocator on a reachable slab
satisfies: `base ≤ base + off < base + virt_page_count * 4096`,
`off mod 4096` is a multiple of `obj_size`, and
`off mod 4096 < slot_count_per_page * obj_size`.  On larger slabs the claim
fails: the 32-bit `int` shift in `page_start` overflows for page indices
`≥ 2 ^ 19` and the returned pointer leaves the reserved range
(`C2_counterexample`). -/
theorem C2_pointer_wf (s : Slab) (out : List Nat) (h : Reach s out)
    (hsmall : s.virt_page_count ≤ 2 ^ 19)
    (rounds : Nat → Nat × (Nat → Nat)) (fuel : Nat) (off : Nat) (s2 : Slab)
    (halloc : bmslab_alloc_machine s rounds 0 fuel = (some (some off), s2)) (base : Nat) :
    base ≤ base + off ∧ base + off < base + s.virt_page_count * 4096 ∧
    (base + off - base) % 4096 % s.obj_size = 0 ∧
    (base + off - base) % 4096 < s.slot_count_per_page * s.obj_size := by
  have hinv := Reach_Inv h
  rw [alloc_machine_eq_small fuel 0 s out rounds hinv hsmall] at halloc
  obtain ⟨_, page, sl, hsl, hoff, hpv, _, _⟩ :=
    alloc_some_inv fuel 0 s out rounds off s2 hinv halloc
  have hobj := hinv.obj_pos
  have hmod : off % 4096 = sl * s.obj_size := by
    rw [hoff]
    exact (hinv.off_div page sl hsl).2
  have hso : sl * s.obj_size < 4096 := by
    have h1 := hinv.slot_off_lt sl hsl
    omega
  have hofflt : off < s.virt_page_count * 4096 := by
    have hmul : (page + 1) * 4096 ≤ s.virt_page_count * 4096 :=
      Nat.mul_le_mul_right _ (by omega)
    have hring : (page + 1) * 4096 = page * 4096 + 4096 := by ring
    rw [hoff]
    omega
  refine ⟨Nat.le_add_right _ _, by omega, ?_, ?_⟩
  · rw [Nat.add_sub_cancel_left, hmod]
    exact Nat.mul_mod_left sl s.obj_size
  · rw [Nat.add_sub_cancel_left, hmod]
    have h2 : (sl + 1) * s.obj_size ≤ s.slot_count_per_page * s.obj_size :=
      Nat.mul_le_mul_right _ hsl
    have h3 : (sl + 1) * s.obj_size = sl * s.obj_size + s.obj_size := by ring
    omega

/-- Witness for C2 (amended): the first machine allocation on a fresh
one-page slab, with `base = 0`. -/
theorem C2_witness :
    (0:Nat) ≤ 0 + 0 ∧ (0:Nat) + 0 < 0 + (initialSlab 4096 1).virt_page_count * 4096 ∧
    ((0:Nat) + 0 - 0) % 4096 % (initialSlab 4096 1).obj_size = 0 ∧
    ((0:Nat) + 0 - 0) % 4096 <
      (initialSlab 4096 1).slot_count_per_page * (initialSlab 4096 1).obj_size := by
  have h1 : (bmslab_alloc_machine (initialSlab 4096 1) zeroRounds 0 1).1 = some (some 0) := by
    decide
  have halloc : bmslab_alloc_machine (initialSlab 4096 1) zeroRounds 0 1 =
      (some (some 0), (bmslab_alloc_machine (initialSlab 4096 1) zeroRounds 0 1).2) := by
    rw [← h1]
  exact C2_pointer_wf (initialSlab 4096 1) []
    (Reach.init 4096 1 (initialSlab 4096 1) (by norm_num) (by norm_num) rfl)
    (by decide) zeroRounds 1 0 _ halloc 0

/-- C3 counterexample: the claim that a successful `bmslab_alloc` leaves every
other page's `page_lock_refs` word net-unchanged is false.  Trace on
`obj_size = 4096`, `max_pages = 2`: alloc (succeeds on page 0 and expansion
publishes page 1), free (shrink drain-locks and reclaims page 1, leaving its
word equal to the drain bit), alloc again: the call succeeds on page 0 (it
returns offset 0) yet the expansion it triggers clears page 1's drain bit,
changing page 1's word from `2 ^ 63` to `0`. -/
theorem C3_counterexample :
    (bmslab_alloc (bmslab_free (bmslab_alloc (initialSlab 4096 2) zeroRounds 0 1).2 0)
        zeroRounds 0 1).1 = some (some 0) ∧
    (bmslab_free (bmslab_alloc (initialSlab 4096 2) zeroRounds 0 1).2 0).page_lock_refs 1 =
      2 ^ 63 ∧
    (bmslab_alloc (bmslab_free (bmslab_alloc (initialSlab 4096 2) zeroRounds 0 1).2 0)
        zeroRounds 0 1).2.page_lock_refs 1 = 0 := by
  exact ⟨by decide, by decide, by decide⟩

/-- C3 (amended): on slabs of at most `2 ^ 19` pages — where the machine
pointer arithmetic is exact, so the pointer a successful allocation returns
routes back to its own page — for every machine `bmslab_alloc` that succeeds
by claiming a slot on page `i = off / 4096`, the call leaves the low-63-bit
reference count of `page_lock_refs[i]` greater by exactly one (the `try_ref`
increment is not undone on the success path) and every other page's
reference count net-unchanged; the matching machine `bmslab_free` of that
pointer decrements page `i`'s reference count by exactly one, so the net
effect of the counts across an alloc/free pair is zero; a `bmslab_alloc`
that returns null leaves the entire state unchanged.  Two caveats of the
source remain: the drain-lock high bits are not framed (the expansion
triggered on the success path may clear the bit of the newly published page,
and the shrink triggered by a free may set the bit of the last live page —
`C3_counterexample`), and on slabs above `2 ^ 19` pages the free of a
wrapped pointer (see `C2_counterexample`) is misrouted by the `uint32_t`
truncations or stopped by the slot assert, so it does not decrement page
`i`'s count at all. -/
theorem C3_refcount_frame (s : Slab) (out : List Nat) (h : Reach s out)
    (hsmall : s.virt_page_count ≤ 2 ^ 19)
    (rounds : Nat → Nat × (Nat → Nat)) (fuel : Nat) :
    (∀ off s2, bmslab_alloc_machine s rounds 0 fuel = (some (some off), s2) →
       refPart (s2.page_lock_refs (off / 4096)) =
         refPart (s.page_lock_refs (off / 4096)) + 1 ∧
       ∀ j, j ≠ off / 4096 →
         refPart (s2.page_lock_refs j) = refPart (s.page_lock_refs j)) ∧
    (∀ s2, bmslab_alloc_machine s rounds 0 fuel = (some none, s2) → s2 = s) ∧
    (∀ off, off ∈ out →
       refPart ((bmslab_free_machine s off).page_lock_refs (off / 4096)) + 1 =
         refPart (s.page_lock_refs (off / 4096)) ∧
       ∀ j, j ≠ off / 4096 →
         refPart ((bmslab_free_machine s off).page_lock_refs j) =
           refPart (s.page_lock_refs j)) := by
  have hinv := Reach_Inv h
  refine ⟨?_, ?_, ?_⟩
  · intro off s2 halloc
    rw [alloc_machine_eq_small fuel 0 s out rounds hinv hsmall] at halloc
    obtain ⟨_, page, sl, hsl, hoff, hpv, hrefp, hrefo⟩ :=
      alloc_some_inv fuel 0 s out rounds off s2 hinv halloc
    have hpage : off / 4096 = page := by
      rw [hoff]
      exact (hinv.off_div page sl hsl).1
    rw [hpage]
    exact ⟨hrefp, hrefo⟩
  · intro s2 halloc
    rw [alloc_machine_eq_small fuel 0 s out rounds hinv hsmall] at halloc
    exact (alloc_null_state fuel 0 s out rounds s2 hinv halloc).1
  · intro off hmem
    rw [free_machine_eq_small hinv hsmall hmem]
    obtain ⟨p0, sl0, hp0, hsl0, hoff⟩ := hinv.out_form off hmem
    have hpage : off / 4096 = p0 := by
      rw [hoff]
      exact (hinv.off_div p0 sl0 hsl0).1
    have hpost := Inv_free hinv hmem
    constructor
    · obtain ⟨_, _, _, hrp_pre⟩ := hinv.word_decomp (off / 4096)
      obtain ⟨_, _, _, hrp_post⟩ := hpost.word_decomp (off / 4096)
      rw [hrp_pre, hrp_post]
      have h2 := pageRefs_erase out off hmem (off / 4096)
      rw [if_pos (show off / PAGE_SIZE = off / 4096 from rfl)] at h2
      omega
    · intro j hj
      obtain ⟨_, _, _, hrp_pre⟩ := hinv.word_decomp j
      obtain ⟨_, _, _, hrp_post⟩ := hpost.word_decomp j
      rw [hrp_pre, hrp_post]
      have h2 := pageRefs_erase out off hmem j
      rw [if_neg (fun hh => hj hh.symm)] at h2
      omega

/-- Witness for C3 (amended): the first machine allocation on a fresh
one-page slab increments page 0's reference count from 0 to 1. -/
theorem C3_witness :
    refPart ((bmslab_alloc_machine (initialSlab 4096 1) zeroRounds 0 1).2.page_lock_refs 0) =
      refPart ((initialSlab 4096 1).page_lock_refs 0) + 1 := by
  have h1 : (bmslab_alloc_machine (initialSlab 4096 1) zeroRounds 0 1).1 = some (some 0) := by
    decide
  have halloc : bmslab_alloc_machine (initialSlab 4096 1) zeroRounds 0 1 =
      (some (some 0), (bmslab_alloc_machine (initialSlab 4096 1) zeroRounds 0 1).2) := by
    rw [← h1]
  have hthm := (C3_refcount_frame (initialSlab 4096 1) []
    (Reach.init 4096 1 (initialSlab 4096 1) (by norm_num) (by norm_num) rfl)
    (by decide) zeroRounds 1).1 0 _ halloc
  have hz : (0:Nat) / 4096 = 0 := rfl
  rw [hz] at hthm
  exact hthm.1

/-- C8: on a slab created with `obj_size = 4096` and `max_pages = 1` (so
`slot_count_per_page = 1`), run single-threaded with arbitrary hash outcomes:
the first `bmslab_alloc` returns the non-null pointer at offset 0, the second
`bmslab_alloc` returns null, and after `bmslab_free` of the first pointer the
next `bmslab_alloc` succeeds and returns exactly the same pointer (offset 0
again). -/
theorem C8_roundtrip (r1 r2 r3 : Nat → Nat × (Nat → Nat)) (f1 f2 f3 : Nat)
    (h1 : 1 ≤ f1) (h2 : 1 ≤ f2) (h3 : 1 ≤ f3) :
    (initialSlab 4096 1).slot_count_per_page = 1 ∧
    ∃ s1 : Slab,
      bmslab_alloc (initialSlab 4096 1) r1 0 f1 = (some (some 0), s1) ∧
      (bmslab_alloc s1 r2 0 f2).1 = some none ∧
      (bmslab_alloc (bmslab_free s1 0) r3 0 f3).1 = some (some 0) := by
  obtain ⟨n1, rfl⟩ : ∃ n, f1 = n + 1 := ⟨f1 - 1, by omega⟩
  obtain ⟨n2, rfl⟩ : ∃ n, f2 = n + 1 := ⟨f2 - 1, by omega⟩
  obtain ⟨n3, rfl⟩ : ∃ n, f3 = n + 1 := ⟨f3 - 1, by omega⟩
  refine ⟨rfl, ?_⟩
  have hscan1 : scanPages (initialSlab 4096 1) (r1 0).1 (r1 0).2 = some (0, 0, 0) :=
    scanPages_single _ _ _ rfl rfl (by decide) (by decide)
  have hrec1 := allocRound_of_scan_some hscan1
  refine ⟨(allocRound (initialSlab 4096 1) (r1 0).1 (r1 0).2).2, ?_, ?_, ?_⟩
  · rw [bmslab_alloc_succ, hrec1]
    rfl
  · have e1 : (allocRound (initialSlab 4096 1) (r1 0).1 (r1 0).2).2.phys_page_count = 1 := by
      rw [hrec1]
      decide
    have e2 : (allocRound (initialSlab 4096 1) (r1 0).1 (r1 0).2).2.virt_page_count = 1 := by
      rw [hrec1]
      decide
    have eFull : ∀ sub, sub < 16 →
        (allocRound (initialSlab 4096 1) (r1 0).1 (r1 0).2).2.submap 0 sub = FULL32 := by
      rw [hrec1]
      decide
    have eWords : ∀ p sub,
        (allocRound (initialSlab 4096 1) (r1 0).1 (r1 0).2).2.submap p sub < 2 ^ 32 := by
      rw [hrec1]
      intro p sub
      dsimp only
      rw [expand_submap]
      dsimp only
      by_cases hp : p = 0
      · subst hp
        rw [Function.update_same]
        by_cases hsub : sub = 0
        · subst hsub
          rw [Function.update_same]
          decide
        · rw [Function.update_noteq hsub]
          exact initPageWords_lt _ sub
      · rw [Function.update_noteq hp]
        exact initPageWords_lt _ sub
    have hscan2 : scanPages ((allocRound (initialSlab 4096 1) (r1 0).1 (r1 0).2).2)
        (r2 0).1 (r2 0).2 = none := by
      rw [scanPages_eq_none_iff _ _ _ (by rw [e1]; omega) eWords]
      intro p hp
      rw [e1] at hp
      have hp0 : p = 0 := by omega
      subst hp0
      exact Or.inr eFull
    rw [bmslab_alloc_succ, allocRound_of_scan_none hscan2]
    dsimp only
    rw [if_neg (by rw [e1, e2]; omega)]
  · have g1 : (bmslab_free ((allocRound (initialSlab 4096 1) (r1 0).1 (r1 0).2).2)
        0).phys_page_count = 1 := by
      rw [hrec1]
      decide
    have g2 : (bmslab_free ((allocRound (initialSlab 4096 1) (r1 0).1 (r1 0).2).2)
        0).page_lock_refs 0 = 0 := by
      rw [hrec1]
      decide
    have g3 : (bmslab_free ((allocRound (initialSlab 4096 1) (r1 0).1 (r1 0).2).2)
        0).submap 0 0 = 4294967294 := by
      rw [hrec1]
      decide
    have g4 : ∀ j, 1 ≤ j → j < 16 →
        (bmslab_free ((allocRound (initialSlab 4096 1) (r1 0).1 (r1 0).2).2)
          0).submap 0 j = FULL32 := by
      rw [hrec1]
      decide
    have hscan3 := scanPages_single _ (r3 0).1 (r3 0).2 g1 g2 g3 g4
    rw [bmslab_alloc_succ, allocRound_of_scan_some hscan3]
    dsimp only
    congr 1
    have gobj : (bmslab_free ((allocRound (initialSlab 4096 1) (r1 0).1 (r1 0).2).2)
        0).obj_size = 4096 := by
      rw [hrec1]
      decide
    rw [gobj]
    simp [PAGE_SIZE, SUBMAP_COUNT]

/-- Witness for C8 with the concrete all-zero hash oracle and fuel 1. -/
theorem C8_witness :
    (initialSlab 4096 1).slot_count_per_page = 1 ∧
    ∃ s1 : Slab,
      bmslab_alloc (initialSlab 4096 1) zeroRounds 0 1 = (some (some 0), s1) ∧
      (bmslab_alloc s1 zeroRounds 0 1).1 = some none ∧
      (bmslab_alloc (bmslab_free s1 0) zeroRounds 0 1).1 = some (some 0) :=
  C8_roundtrip zeroRounds zeroRounds zeroRounds 1 1 1
    (by norm_num) (by norm_num) (by norm_num)

end Bmslab
